import Mathlib

set_option maxRecDepth 1000000
/-!
# Verification of the `fluid-diagnose-bundler` bundling pipeline

A shallow embedding, in Lean 4, of the Go library `fluid-diagnose-bundler`
(packages `pkg/types`, `pkg/bundler`: `bundler.go`, `manifest.go`,
`writer.go`, the layout constants, and the redaction component
`redact.go`), together with theorems settling the specification claims
about it.

Modelling conventions:
* byte strings (`[]byte` and Go `string` contents, always UTF-8 here) are
  modelled as Lean `String`s; where a digest or a length is computed, the
  string is first expanded to its UTF-8 byte sequence (`List Nat`,
  each < 256), exactly as Go hashes/measures the raw bytes;
* machine integers (`int64` sizes and counts) are modelled as `Nat`
  (all quantities involved are small non-negative counts/lengths);
* `crypto/sha256` is implemented concretely (FIPS 180-4) so that digests
  evaluate on concrete inputs;
* Go maps (`map[string][]byte` for logs, `map[string]string` for
  resources, `map[string]interface{}` for the resource graph) are
  modelled as association lists; for logs/resources the list records the
  *iteration sequence* the Go runtime chooses for the map — Go randomizes
  map iteration order, so a single map value corresponds to every
  permutation of its entry list; `encoding/json` serializes map keys in
  sorted order, which the embedding reproduces by sorting object keys at
  marshal time;
* the produced `.tar.gz` is modelled as the ordered sequence of tar
  entries (normalized header fields plus verbatim content bytes) that
  `ArchiveWriter.WriteToDisk` emits; the actual byte stream is a fixed
  deterministic function of that sequence (tar framing + gzip at the
  fixed default level, storing entry contents verbatim), so two runs
  produce byte-identical archive files iff they produce equal entry
  sequences;
* `time.Time` values (always UTC, zero nanoseconds, as in the repo's
  test) are modelled as a year/month/day/hour/minute/second record with
  the two format renderings the code uses (`20060102-150405` and
  RFC 3339).
-/

namespace FluidBundler

/-! ## Bytes, UTF-8, hex -/

/-- A byte sequence: each element is a byte value (< 256). -/
abbrev Bytes := List Nat

/-- Standard UTF-8 encoding of one Unicode scalar value. -/
def utf8Encode (c : Char) : Bytes :=
  let n := c.toNat
  if n < 0x80 then [n]
  else if n < 0x800 then
    [0xC0 ||| (n >>> 6), 0x80 ||| (n &&& 0x3F)]
  else if n < 0x10000 then
    [0xE0 ||| (n >>> 12), 0x80 ||| ((n >>> 6) &&& 0x3F), 0x80 ||| (n &&& 0x3F)]
  else
    [0xF0 ||| (n >>> 18), 0x80 ||| ((n >>> 12) &&& 0x3F),
     0x80 ||| ((n >>> 6) &&& 0x3F), 0x80 ||| (n &&& 0x3F)]

/-- The UTF-8 bytes of a string — what Go sees when it converts a
`string` to `[]byte` or hashes its contents. -/
def strBytes (s : String) : Bytes :=
  (s.data.map utf8Encode).flatten

/-- Hex digit character for a value < 16 (lowercase, as Go's
`encoding/hex`). -/
def hexDigit (n : Nat) : Char :=
  if n < 10 then Char.ofNat (48 + n) else Char.ofNat (87 + n)

/-- Two-digit lowercase hex rendering of one byte. -/
def byteHex (b : Nat) : String :=
  String.mk [hexDigit (b / 16), hexDigit (b % 16)]

/-- Lowercase hex rendering of a byte sequence (Go's
`hex.EncodeToString`). -/
def bytesToHex (bs : Bytes) : String :=
  String.join (bs.map byteHex)

/-! ## SHA-256 (crypto/sha256), FIPS 180-4 -/

/-- Truncation to a 32-bit word. -/
def w32 (n : Nat) : Nat := n % 4294967296

/-- Right rotation of a 32-bit word. -/
def rotr (x n : Nat) : Nat := w32 ((x >>> n) ||| (x <<< (32 - n)))

def shaCh (x y z : Nat) : Nat := (x &&& y) ^^^ ((x ^^^ 0xFFFFFFFF) &&& z)

def shaMaj (x y z : Nat) : Nat := (x &&& y) ^^^ (x &&& z) ^^^ (y &&& z)

def bigSigma0 (x : Nat) : Nat := rotr x 2 ^^^ rotr x 13 ^^^ rotr x 22

def bigSigma1 (x : Nat) : Nat := rotr x 6 ^^^ rotr x 11 ^^^ rotr x 25

def smallSigma0 (x : Nat) : Nat := rotr x 7 ^^^ rotr x 18 ^^^ (x >>> 3)

def smallSigma1 (x : Nat) : Nat := rotr x 17 ^^^ rotr x 19 ^^^ (x >>> 10)

/-- The SHA-256 round constants. -/
def shaK : List Nat :=
  [1116352408, 1899447441, 3049323471, 3921009573, 961987163, 1508970993,
   2453635748, 2870763221, 3624381080, 310598401, 607225278, 1426881987,
   1925078388, 2162078206, 2614888103, 3248222580, 3835390401, 4022224774,
   264347078, 604807628, 770255983, 1249150122, 1555081692, 1996064986,
   2554220882, 2821834349, 2952996808, 3210313671, 3336571891, 3584528711,
   113926993, 338241895, 666307205, 773529912, 1294757372, 1396182291,
   1695183700, 1986661051, 2177026350, 2456956037, 2730485921, 2820302411,
   3259730800, 3345764771, 3516065817, 3600352804, 4094571909, 275423344,
   430227734, 506948616, 659060556, 883997877, 958139571, 1322822218,
   1537002063, 1747873779, 1955562222, 2024104815, 2227730452, 2361852424,
   2428436474, 2756734187, 3204031479, 3329325298]

/-- The SHA-256 initial hash value. -/
def shaH0 : List Nat :=
  [1779033703, 3144134277, 1013904242, 2773480762,
   1359893119, 2600822924, 528734635, 1541459225]

/-- Big-endian bytes (most significant first) of a value, `k` bytes. -/
def beBytes (k n : Nat) : Bytes :=
  match k with
  | 0 => []
  | k + 1 => beBytes k (n / 256) ++ [n % 256]

/-- SHA-256 message padding: a `0x80` byte, zero bytes to 56 mod 64,
then the 64-bit big-endian bit length. -/
def shaPad (msg : Bytes) : Bytes :=
  let l := msg.length
  let z := (64 + 55 - (l % 64)) % 64
  msg ++ [0x80] ++ List.replicate z 0 ++ beBytes 8 (8 * l)

/-- Group bytes into 32-bit big-endian words. -/
def toWords : Bytes → List Nat
  | b0 :: b1 :: b2 :: b3 :: rest =>
    (((b0 * 256 + b1) * 256 + b2) * 256 + b3) :: toWords rest
  | _ => []

/-- Extend a 16-word block to the 64-word message schedule.  The first
argument is structural fuel (48 extension steps). -/
def shaExtend : Nat → List Nat → List Nat
  | 0, acc => acc
  | k + 1, acc =>
    let i := acc.length
    let w := w32 (smallSigma1 (acc.getD (i - 2) 0) + acc.getD (i - 7) 0 +
                  smallSigma0 (acc.getD (i - 15) 0) + acc.getD (i - 16) 0)
    shaExtend k (acc ++ [w])

/-- One SHA-256 round: update the eight working registers with round
constant `k` and schedule word `w`. -/
def shaRound (st : List Nat) (kw : Nat × Nat) : List Nat :=
  match st with
  | [a, b, c, d, e, f, g, h] =>
    let t1 := w32 (h + bigSigma1 e + shaCh e f g + kw.1 + kw.2)
    let t2 := w32 (bigSigma0 a + shaMaj a b c)
    [w32 (t1 + t2), a, b, c, w32 (d + t1), e, f, g]
  | st => st

/-- Compress one 64-byte block into the running hash state. -/
def shaCompress (h : List Nat) (block : Bytes) : List Nat :=
  let ws := shaExtend 48 (toWords block)
  let fin := (shaK.zip ws).foldl shaRound h
  (h.zip fin).map fun p => w32 (p.1 + p.2)

/-- Split into 64-byte chunks (first argument is structural fuel,
`≥ length` suffices). -/
def chunks64Go : Nat → Bytes → List Bytes
  | 0, _ => []
  | _ + 1, [] => []
  | fuel + 1, l => l.take 64 :: chunks64Go fuel (l.drop 64)

def chunks64 (l : Bytes) : List Bytes := chunks64Go (l.length + 1) l

/-- The SHA-256 digest (32 bytes) of a byte sequence. -/
def sha256 (msg : Bytes) : Bytes :=
  let hs := (chunks64 (shaPad msg)).foldl shaCompress shaH0
  (hs.map (beBytes 4)).flatten

/-- The lowercase-hex SHA-256 digest of a byte sequence — what
`hex.EncodeToString(sha256.Sum256(data)[:])` produces. -/
def sha256Hex (msg : Bytes) : String := bytesToHex (sha256 msg)

/-- The hex SHA-256 digest of a string's UTF-8 bytes. -/
def sha256HexS (s : String) : String := sha256Hex (strBytes s)

/-! ## String ordering (Go `<`/`<=` on strings, used by `sort.Strings`
and by `encoding/json`'s map-key sort)

Go compares strings byte-wise; on UTF-8 this coincides with
lexicographic comparison of the code-point sequences, implemented
structurally here. -/

/-- Lexicographic strict order on character lists. -/
def strLtChars : List Char → List Char → Bool
  | [], [] => false
  | [], _ :: _ => true
  | _ :: _, [] => false
  | c :: cs, d :: ds => if c = d then strLtChars cs ds else decide (c < d)

/-- Lexicographic non-strict order on character lists. -/
def strLeChars : List Char → List Char → Bool
  | [], _ => true
  | _ :: _, [] => false
  | c :: cs, d :: ds => if c = d then strLeChars cs ds else decide (c < d)

def strLt (a b : String) : Bool := strLtChars a.data b.data

def strLe (a b : String) : Bool := strLeChars a.data b.data

/-! ## Generic JSON values (`interface{}` after `json.Unmarshal`)

Dynamic JSON-shaped data — the `map[string]interface{}` /
`[]interface{}` / scalar form that `redact.go`'s `scrubJSON` works on
after its marshal/unmarshal round trip.  Objects are association lists;
a Go map has no entry order, and `encoding/json` always serializes map
keys in sorted order, which `jsonSortMaps` below reproduces. -/

inductive Json where
  | str (s : String)
  | num (n : Int)
  | bool (b : Bool)
  | null
  | arr (xs : List Json)
  | obj (fields : List (String × Json))

/-! ## JSON serialization (`encoding/json`, `MarshalIndent(v, "", "  ")`) -/

/-- Escape one character inside a JSON string literal exactly as Go's
`encoding/json` does with its default HTML escaping: `"` and `\\` are
backslash-escaped, `\n`/`\r`/`\t` use their short forms, other control
characters use `\u00XX`, and `<`, `>`, `&`, U+2028, U+2029 are escaped
as `\uXXXX`. -/
def escChar (c : Char) : List Char :=
  if c = '"' then ['\\', '"']
  else if c = '\\' then ['\\', '\\']
  else if c = '\n' then ['\\', 'n']
  else if c = '\r' then ['\\', 'r']
  else if c = '\t' then ['\\', 't']
  else if c.toNat < 0x20 then
    ['\\', 'u', '0', '0', hexDigit (c.toNat / 16), hexDigit (c.toNat % 16)]
  else if c = '<' then ['\\', 'u', '0', '0', '3', 'c']
  else if c = '>' then ['\\', 'u', '0', '0', '3', 'e']
  else if c = '&' then ['\\', 'u', '0', '0', '2', '6']
  else if c.toNat = 0x2028 then ['\\', 'u', '2', '0', '2', '8']
  else if c.toNat = 0x2029 then ['\\', 'u', '2', '0', '2', '9']
  else [c]

/-- A JSON string literal with Go's escaping. -/
def jsonQuote (s : String) : String :=
  "\"" ++ String.mk (s.data.map escChar).flatten ++ "\""

/-- `n` copies of the two-space indent unit. -/
def indentAt : Nat → String
  | 0 => ""
  | n + 1 => "  " ++ indentAt n

mutual

/-- Render a JSON value as `json.MarshalIndent(v, "", "  ")` does, at
enclosing indent level `lvl`.  Empty objects/arrays render as `{}` /
`[]`; non-empty ones put each element on its own line, one level
deeper. -/
def jsonIndent : Nat → Json → String
  | _, .str s => jsonQuote s
  | _, .num n => Int.repr n
  | _, .bool b => if b then "true" else "false"
  | _, .null => "null"
  | _, .arr [] => "[]"
  | lvl, .arr (x :: xs) =>
    "[\n" ++ jsonItems (lvl + 1) (x :: xs) ++ "\n" ++ indentAt lvl ++ "]"
  | _, .obj [] => "\x7b\x7d"
  | lvl, .obj (f :: fs) =>
    "\x7b\n" ++ jsonMembers (lvl + 1) (f :: fs) ++ "\n" ++ indentAt lvl ++ "\x7d"

/-- Comma-and-newline separated array elements at indent level `lvl`. -/
def jsonItems : Nat → List Json → String
  | _, [] => ""
  | lvl, [x] => indentAt lvl ++ jsonIndent lvl x
  | lvl, x :: y :: xs =>
    indentAt lvl ++ jsonIndent lvl x ++ ",\n" ++ jsonItems lvl (y :: xs)

/-- Comma-and-newline separated object members at indent level `lvl`. -/
def jsonMembers : Nat → List (String × Json) → String
  | _, [] => ""
  | lvl, [(k, v)] => indentAt lvl ++ jsonQuote k ++ ": " ++ jsonIndent lvl v
  | lvl, (k, v) :: m :: fs =>
    indentAt lvl ++ jsonQuote k ++ ": " ++ jsonIndent lvl v ++ ",\n" ++
      jsonMembers lvl (m :: fs)

end

mutual

/-- Recursively sort every object's fields by key — `encoding/json`
serializes Go maps with sorted keys, and every object reaching the
serializer through `scrubJSON`'s unmarshal round trip (or directly from
a `ResourceGraph` map) is a Go map. -/
def jsonSortMaps : Json → Json
  | .obj fs => .obj (List.insertionSort (fun a b => strLe a.1 b.1 = true) (jsonSortFields fs))
  | .arr xs => .arr (jsonSortList xs)
  | j => j

def jsonSortFields : List (String × Json) → List (String × Json)
  | [] => []
  | (k, v) :: tl => (k, jsonSortMaps v) :: jsonSortFields tl

def jsonSortList : List Json → List Json
  | [] => []
  | v :: tl => jsonSortMaps v :: jsonSortList tl

end

/-- Serialization of a Go *map-shaped* value (all objects are maps):
sorted keys, two-space indent, as `json.MarshalIndent(v, "", "  ")`. -/
def marshalIndentMap (j : Json) : String := jsonIndent 0 (jsonSortMaps j)

/-! ## Path cleaning and joining (`path/filepath.Join` on slash paths) -/

/-- Split a character list at `/` separators (keeping empty parts). -/
def splitSlash : List Char → List (List Char)
  | [] => [[]]
  | c :: rest =>
    let r := splitSlash rest
    if c = '/' then [] :: r
    else
      match r with
      | h :: t => (c :: h) :: t
      | [] => [[c]]

/-- One step of Go's `path.Clean` component processing, on a reversed
stack of output components: empty and `.` components are dropped, `..`
pops a non-`..` component (kept literally at the start of a relative
path, dropped at the root of an absolute one), anything else is
pushed. -/
def cleanPush (abs : Bool) (stack : List String) (c : String) : List String :=
  if c = "" ∨ c = "." then stack
  else if c = ".." then
    match stack with
    | [] => if abs then [] else [".."]
    | top :: rest => if top = ".." then c :: stack else rest
  else c :: stack

/-- Join with a separator (`strings.Join`). -/
def joinSep (sep : String) : List String → String
  | [] => ""
  | [x] => x
  | x :: y :: xs => x ++ sep ++ joinSep sep (y :: xs)

/-- Go's `path.Clean` (equivalently `filepath.Clean` on slash-separated
paths): shortest lexical equivalent of `p`. -/
def cleanPath (p : String) : String :=
  if p = "" then "."
  else
    let abs := p.data.head? = some '/'
    let comps := (splitSlash p.data).map String.mk
    let body := joinSep "/" (comps.foldl (cleanPush abs) []).reverse
    if abs then "/" ++ body
    else if body = "" then "." else body

/-- Go's `filepath.Join(a, b)` on a slash-separated filesystem: empty
elements are dropped, the rest are joined with `/` and cleaned. -/
def joinPath (a b : String) : String :=
  if a = "" ∧ b = "" then ""
  else if a = "" then cleanPath b
  else if b = "" then cleanPath a
  else cleanPath (a ++ "/" ++ b)

/-! ## Structural redaction (`redact.go`: `scrubMap` / `scrubSlice`) -/

/-- Lower-case a string character-wise (`strings.ToLower` on the ASCII
keys involved). -/
def lowerStr (s : String) : String := String.mk (s.data.map Char.toLower)

/-- `true` iff `needle` occurs as a contiguous substring
(`strings.Contains hay needle`). -/
def isSubstrOf (needle hay : List Char) : Bool :=
  match hay with
  | [] => needle.isEmpty
  | c :: t => List.isPrefixOf needle (c :: t) || isSubstrOf needle t

def strContains (hay needle : String) : Bool := isSubstrOf needle.data hay.data

/-- The sensitive-keyword list of `scrubMap`. -/
def sensitiveKeys : List String :=
  ["password", "token", "key", "secret", "authorization"]

/-- `scrubMap`'s key test: the lower-cased key contains one of the
sensitive keywords as a substring. -/
def sensitiveKey (k : String) : Bool :=
  sensitiveKeys.any fun sk => strContains (lowerStr k) sk

/-- The mask literal used by all redaction paths. -/
def maskLiteral : String := "[REDACTED]"

mutual

/-- The value dispatch inside `scrubMap`/`scrubSlice`: nested maps and
slices are scrubbed recursively, any other value passes through. -/
def scrubValue : Json → Json
  | .obj fs => .obj (scrubMap fs)
  | .arr xs => .arr (scrubSlice xs)
  | v => v

/-- `scrubMap`: a sensitive key's value is replaced wholesale with the
mask literal (no recursion into it); other values are dispatched. -/
def scrubMap : List (String × Json) → List (String × Json)
  | [] => []
  | (k, v) :: tl =>
    (k, if sensitiveKey k then Json.str maskLiteral else scrubValue v) :: scrubMap tl

/-- `scrubSlice`: scrub each element. -/
def scrubSlice : List Json → List Json
  | [] => []
  | v :: tl => scrubValue v :: scrubSlice tl

end

/-! ## Go dynamic values (`interface{}`) and `json.Marshal` fallibility

A `ResourceGraph` is `map[string]interface{}`; its values can hold data
`encoding/json` cannot serialize (channels, functions, …), on which
`json.Marshal` fails with `json: unsupported type: <type>`.  `GoVal`
extends the JSON shapes with such an opaque unsupported leaf. -/

inductive GoVal where
  | str (s : String)
  | num (n : Int)
  | bool (b : Bool)
  | null
  | arr (xs : List GoVal)
  | obj (fields : List (String × GoVal))
  | unsupported (typeName : String)

mutual

/-- The Go type name of the first value `json.Marshal` rejects, if any.
(When several unsupported values occur, Go's encoder reports the one it
reaches first, visiting map keys in sorted order; this traversal uses
the stored order — no claim depends on which of several failures is
reported.) -/
def firstUnsupported : GoVal → Option String
  | .unsupported t => some t
  | .arr xs => firstUnsupportedList xs
  | .obj fs => firstUnsupportedFields fs
  | _ => none

def firstUnsupportedList : List GoVal → Option String
  | [] => none
  | v :: tl =>
    match firstUnsupported v with
    | some t => some t
    | none => firstUnsupportedList tl

def firstUnsupportedFields : List (String × GoVal) → Option String
  | [] => none
  | (_, v) :: tl =>
    match firstUnsupported v with
    | some t => some t
    | none => firstUnsupportedFields tl

end

mutual

/-- The JSON tree of a `GoVal` with no unsupported leaf (unsupported
leaves map to `null`, but `goMarshalJson` never exposes that case). -/
def goStrip : GoVal → Json
  | .str s => .str s
  | .num n => .num n
  | .bool b => .bool b
  | .null => .null
  | .unsupported _ => .null
  | .arr xs => .arr (goStripList xs)
  | .obj fs => .obj (goStripFields fs)

def goStripList : List GoVal → List Json
  | [] => []
  | v :: tl => goStrip v :: goStripList tl

def goStripFields : List (String × GoVal) → List (String × Json)
  | [] => []
  | (k, v) :: tl => (k, goStrip v) :: goStripFields tl

end

/-- `json.Marshal` of a dynamic Go value, viewed through the subsequent
`json.Unmarshal` into `interface{}`: an error with Go's message for an
unsupported value, otherwise the JSON tree. -/
def goMarshalJson (g : GoVal) : Except String Json :=
  match firstUnsupported g with
  | some t => .error ("json: unsupported type: " ++ t)
  | none => .ok (goStrip g)

/-- `scrubJSON` of `redact.go`: marshal, unmarshal into dynamic form,
then scrub maps/slices structurally (other top-level shapes pass
through unchanged). -/
def scrubJSON (g : GoVal) : Except String Json :=
  match goMarshalJson g with
  | .error e => .error e
  | .ok (.obj fs) => .ok (.obj (scrubMap fs))
  | .ok (.arr xs) => .ok (.arr (scrubSlice xs))
  | .ok j => .ok j

/-! ## Pattern-based redaction (`redact.go`: `regexRedactor`)

The single active pattern is
`(?i)(password|token|key|secret)\s*[:=]\s*["']?([^"'\s]+)["']?`,
replaced via `ReplaceAllString(s, "$1: [REDACTED]")`: Go's regexp scans
for successive non-overlapping leftmost matches and substitutes each
whole match by the matched keyword text (case preserved) followed by
`: [REDACTED]`.  The scanner below implements that pattern directly:
the alternation's branches start with four distinct letters and the
greedy pieces (`\s*`, the optional quotes, the value run) never compete
with what follows them, so the match at a position is deterministic. -/

/-- RE2's `\s` character class: `[\t\n\f\r ]`. -/
def isSpaceRE (c : Char) : Bool :=
  c = ' ' || c = '\t' || c = '\n' || c = '\x0c' || c = '\r'

/-- A single or double quote (the `["']` class). -/
def isQuoteChar (c : Char) : Bool := c = '"' || c = '\''

/-- The value-token class `[^"'\s]`. -/
def isValueChar (c : Char) : Bool := !(isQuoteChar c || isSpaceRE c)

/-- The keyword alternation of the pattern, in source order. -/
def redactKeywords : List String := ["password", "token", "key", "secret"]

/-- Case-insensitive keyword match at the head of the input: returns the
matched text (original case) and the remaining input. -/
def ciMatchKw : List Char → List Char → Option (List Char × List Char)
  | [], s => some ([], s)
  | _ :: _, [] => none
  | k :: ks, c :: cs =>
    if Char.toLower c = k then
      match ciMatchKw ks cs with
      | some (m, rest) => some (c :: m, rest)
      | none => none
    else none

/-- Try each keyword of the alternation in order. -/
def tryKeywords : List String → List Char → Option (List Char × List Char)
  | [], _ => none
  | kw :: kws, s =>
    match ciMatchKw kw.data s with
    | some r => some r
    | none => tryKeywords kws s

/-- Consume one optional closing quote (the trailing `["']?`). -/
def dropOneQuote : List Char → List Char
  | [] => []
  | c :: cs => if isQuoteChar c then cs else c :: cs

/-- Match `["']?([^"'\s]+)["']?`: an optional opening quote, a
non-empty greedy run of value characters, an optional closing quote;
returns the input remaining after the match. -/
def matchValue : List Char → Option (List Char)
  | [] => none
  | c :: cs =>
    if isQuoteChar c then
      match cs with
      | [] => none
      | d :: _ =>
        if isValueChar d then some (dropOneQuote (cs.dropWhile isValueChar))
        else none
    else if isValueChar c then
      some (dropOneQuote ((c :: cs).dropWhile isValueChar))
    else none

/-- Match `\s*[:=]\s*` followed by the value part. -/
def matchAfterKw (s : List Char) : Option (List Char) :=
  match s.dropWhile isSpaceRE with
  | [] => none
  | c :: s2 =>
    if c = ':' || c = '=' then matchValue (s2.dropWhile isSpaceRE)
    else none

/-- Match the whole pattern at the start of the input: returns the
keyword text as matched and the input remaining after the match. -/
def matchAt (s : List Char) : Option (List Char × List Char) :=
  match tryKeywords redactKeywords s with
  | some (kwText, afterKw) =>
    match matchAfterKw afterKw with
    | some rest => some (kwText, rest)
    | none => none
  | none => none

/-- The replacement text for a match with keyword text `kw` is
`kw ++ ": [REDACTED]"`. -/
def maskRepl : List Char := (": " ++ maskLiteral).data

/-- Scan for successive non-overlapping leftmost matches, replacing
each (the fuel argument is structural; any `fuel ≥ length` computes the
full scan, since every step consumes at least one character). -/
def redactScan : Nat → List Char → List Char
  | 0, s => s
  | _ + 1, [] => []
  | fuel + 1, c :: cs =>
    match matchAt (c :: cs) with
    | some (kwText, rest) => kwText ++ maskRepl ++ redactScan fuel rest
    | none => c :: redactScan fuel cs

def redactChars (s : List Char) : List Char := redactScan s.length s

/-- `regexRedactor.RedactString`. -/
def RedactString (s : String) : String := String.mk (redactChars s.data)

/-- `regexRedactor.Redact` (bytes in, bytes out — identical scan over
the text). -/
def Redact (b : String) : String := RedactString b

/-! ## Times (`time.Time`, always UTC with zero nanoseconds here) -/

structure GoTime where
  year : Nat
  month : Nat
  day : Nat
  hour : Nat
  minute : Nat
  second : Nat
deriving DecidableEq, Repr

def pad2 (n : Nat) : String := if n < 10 then "0" ++ Nat.repr n else Nat.repr n

def pad4 (n : Nat) : String :=
  if n < 10 then "000" ++ Nat.repr n
  else if n < 100 then "00" ++ Nat.repr n
  else if n < 1000 then "0" ++ Nat.repr n
  else Nat.repr n

/-- Go layout `20060102-150405`. -/
def GoTime.formatCompact (t : GoTime) : String :=
  pad4 t.year ++ pad2 t.month ++ pad2 t.day ++ "-" ++
    pad2 t.hour ++ pad2 t.minute ++ pad2 t.second

/-- Go layout `time.RFC3339` for a UTC instant (also what a zero-nanosecond
UTC `time.Time` marshals to in JSON). -/
def GoTime.formatRFC3339 (t : GoTime) : String :=
  pad4 t.year ++ "-" ++ pad2 t.month ++ "-" ++ pad2 t.day ++ "T" ++
    pad2 t.hour ++ ":" ++ pad2 t.minute ++ ":" ++ pad2 t.second ++ "Z"

/-! ## Data model (`pkg/types`) -/

structure Issue where
  level : String
  message : String
deriving DecidableEq, Repr

structure DiagnosticResult where
  issues : List Issue
  score : Int
deriving DecidableEq, Repr

structure BundleMetadata where
  creationTimestamp : GoTime
  fluidVersion : String
  k8sVersion : String
  environment : String
deriving DecidableEq, Repr

/-- `types.BundleInput`.  `graph` is the `ResourceGraph` map
(`map[string]interface{}`) as an association list with distinct keys;
`logs` and `resources` are the corresponding maps *in the iteration
sequence the Go runtime chooses for them* — Go randomizes map iteration
order, so one map value corresponds to every permutation of its entry
list. -/
structure BundleInput where
  graph : List (String × GoVal)
  diagnosis : DiagnosticResult
  metadata : BundleMetadata
  logs : List (String × String)
  resources : List (String × String)

structure FileEntry where
  path : String
  size : Nat
  sha256 : String
deriving DecidableEq, Repr

structure BundleManifest where
  version : String
  generatedAt : GoTime
  totalFiles : Nat
  files : List FileEntry
  contentHash : String
deriving DecidableEq, Repr

structure BundleResult where
  archivePath : String
  fileCount : Nat
  manifest : BundleManifest
  sizeBytes : Nat
deriving DecidableEq, Repr

/-! ## ManifestBuilder (`manifest.go`) -/

structure ManifestBuilder where
  manifest : BundleManifest
deriving DecidableEq

def NewManifestBuilder (version : String) (ts : GoTime) : ManifestBuilder :=
  ⟨{ version := version, generatedAt := ts, totalFiles := 0, files := [],
     contentHash := "" }⟩

/-- `ManifestBuilder.AddFile`: append an entry carrying the SHA-256
digest of `data` and bump `TotalFiles` (no deduplication). -/
def ManifestBuilder.AddFile (mb : ManifestBuilder) (path : String) (size : Nat)
    (data : String) : ManifestBuilder :=
  ⟨{ mb.manifest with
      files := mb.manifest.files ++
        [{ path := path, size := size, sha256 := sha256HexS data }],
      totalFiles := mb.manifest.totalFiles + 1 }⟩

/-- `ManifestBuilder.Build`: the aggregate `ContentHash` is the SHA-256
of the per-file digest hex strings concatenated in `AddFile` order. -/
def ManifestBuilder.Build (mb : ManifestBuilder) : BundleManifest :=
  { mb.manifest with
      contentHash := sha256HexS (String.join (mb.manifest.files.map (·.sha256))) }

/-! ## ArchiveWriter (`writer.go`) -/

/-- In-memory file buffer: a Go `map[string][]byte`, as an association
list with one entry per key (assignment overwrites). -/
def mapSet (m : List (String × String)) (k v : String) : List (String × String) :=
  (k, v) :: m.filter fun e => e.1 ≠ k

def mapLookup : List (String × String) → String → Option String
  | [], _ => none
  | (k, v) :: tl, p => if k = p then some v else mapLookup tl p

structure ArchiveWriter where
  baseDir : String
  files : List (String × String)
  ts : GoTime

def NewArchiveWriter (baseDir : String) (ts : GoTime) : ArchiveWriter :=
  ⟨baseDir, [], ts⟩

def ArchiveWriter.AddFile (w : ArchiveWriter) (path content : String) : ArchiveWriter :=
  { w with files := mapSet w.files path content }

/-- A normalized tar header as `WriteToDisk` fills it: fixed mode 0644
(= 420), regular-file type flag `'0'` (= 48), and all three time fields
pinned to the writer's timestamp. -/
structure TarHeader where
  name : String
  size : Nat
  mode : Nat
  mtime : GoTime
  atime : GoTime
  ctime : GoTime
  typeflag : Nat
deriving DecidableEq, Repr

/-- `archive/tar.TypeReg` (the byte `'0'`). -/
def tarTypeReg : Nat := 48

structure TarEntry where
  header : TarHeader
  content : String
deriving DecidableEq, Repr

/-- The observable output of `WriteToDisk`: the destination path, the
ordered tar entry sequence (the `.tar.gz` byte stream is a fixed
deterministic function of this sequence — fixed tar framing plus gzip at
the fixed default level, entry contents stored verbatim), and the total
uncompressed content size it returns.  Directory creation and
absolute-path resolution (`os.MkdirAll`, `filepath.Abs`) are not
modelled; they do not affect the archive bytes. -/
structure WriteOutput where
  archivePath : String
  entries : List TarEntry
  totalSize : Nat
deriving DecidableEq, Repr

/-- `ArchiveWriter.WriteToDisk`: sort the buffered paths (Go
`sort.Strings` — byte-wise lexicographic, which on UTF-8 coincides with
`String`'s order on code points), then emit one normalized entry per
path under the base directory. -/
def ArchiveWriter.WriteToDisk (w : ArchiveWriter) (outputDir : String) : WriteOutput :=
  let archivePath := joinPath outputDir (w.baseDir ++ ".tar.gz")
  let paths := List.insertionSort (fun a b : String => strLe a b = true) (w.files.map (·.1))
  let entries := paths.map fun p =>
    let content := (mapLookup w.files p).getD ""
    { header := { name := joinPath w.baseDir p,
                  size := (strBytes content).length,
                  mode := 420, mtime := w.ts, atime := w.ts, ctime := w.ts,
                  typeflag := tarTypeReg },
      content := content }
  { archivePath := archivePath, entries := entries,
    totalSize := (entries.map fun e => (strBytes e.content).length).sum }

/-! ## Layout constants (`layout.go`) -/

def ManifestFile : String := "manifest.json"
def SummaryFile : String := "summary.txt"
def GraphFile : String := "graph.json"
def DiagnosisFile : String := "diagnosis.json"
def ResourcesDir : String := "resources"
def LogsDir : String := "logs"
def MetadataDir : String := "metadata"

/-! ## Pipeline (`bundler.go`: `Build`) -/

/-- The option-resolved configuration: `WithRedaction` sets `redact`,
`WithTimestamp` sets `timestamp` (otherwise `time.Now()` is used, with
whatever instant that returns), `WithOutputDir` sets `outputDir`. -/
structure BuildConfig where
  redact : Bool
  timestamp : GoTime
  outputDir : String

/-- JSON tree of an `Issue` (struct field order). -/
def issueJson (i : Issue) : Json :=
  .obj [("level", .str i.level), ("message", .str i.message)]

/-- JSON tree of a `DiagnosticResult` (struct field order; the empty
issues slice serializes as `[]`, as in the repo's test fixture). -/
def diagnosisJson (d : DiagnosticResult) : Json :=
  .obj [("issues", .arr (d.issues.map issueJson)), ("score", .num d.score)]

/-- JSON tree of `BundleMetadata` (struct field order;
`environment,omitempty` is dropped when empty). -/
def metadataJson (m : BundleMetadata) : Json :=
  .obj ([("creationTimestamp", .str m.creationTimestamp.formatRFC3339),
         ("fluidVersion", .str m.fluidVersion),
         ("k8sVersion", .str m.k8sVersion)] ++
        if m.environment = "" then [] else [("environment", .str m.environment)])

/-- `addFile`'s processing of a structured (non-map) Go struct value:
with redaction, `scrubJSON`'s marshal/unmarshal round trip turns it into
maps, which are scrubbed and re-serialized with sorted keys; without,
`json.MarshalIndent` keeps struct field order.  (Neither struct can make
`json.Marshal` fail.) -/
def structuredContent (redact : Bool) (j : Json) : String :=
  if redact then jsonIndent 0 (jsonSortMaps (scrubValue j))
  else jsonIndent 0 j

/-- `addFile`'s processing of the resource graph
(`map[string]interface{}`): redaction-scrub (fallible marshal) or plain
marshal; either way the serializer emits map keys sorted. -/
def graphContent (redact : Bool) (g : List (String × GoVal)) : Except String String :=
  if redact then
    match scrubJSON (.obj g) with
    | .error e => .error ("redaction failed for " ++ GraphFile ++ ": " ++ e)
    | .ok clean => .ok (marshalIndentMap clean)
  else
    match goMarshalJson (.obj g) with
    | .error e => .error ("serialization failed for " ++ GraphFile ++ ": " ++ e)
    | .ok j => .ok (marshalIndentMap j)

/-- The human-readable summary text `Build` generates. -/
def summaryText (ts : GoTime) (d : DiagnosticResult) : String :=
  "Fluid Diagnostic Bundle\nGenerated: " ++ ts.formatRFC3339 ++
    "\nIssues: " ++ Nat.repr d.issues.length ++ "\n"

/-- The ordered sequence of logical files `Build` registers (path and
final content bytes), or the first per-file error: graph, diagnosis,
metadata, summary, then logs and resources in their map-iteration
sequences.  Log/resource/summary contents are pattern-redacted when
redaction is on; only the graph can fail. -/
def buildFiles (input : BundleInput) (cfg : BuildConfig) :
    Except String (List (String × String)) :=
  match graphContent cfg.redact input.graph with
  | .error e => .error e
  | .ok graphC =>
    let diagC := structuredContent cfg.redact (diagnosisJson input.diagnosis)
    let metaC := structuredContent cfg.redact (metadataJson input.metadata)
    let sumT := summaryText cfg.timestamp input.diagnosis
    let sumC := if cfg.redact then RedactString sumT else sumT
    let logFiles := input.logs.map fun nc =>
      (joinPath LogsDir nc.1, if cfg.redact then Redact nc.2 else nc.2)
    let resFiles := input.resources.map fun pc =>
      (joinPath ResourcesDir pc.1, if cfg.redact then RedactString pc.2 else pc.2)
    .ok ([(GraphFile, graphC), (DiagnosisFile, diagC),
          (joinPath MetadataDir "environment.json", metaC),
          (SummaryFile, sumC)] ++ logFiles ++ resFiles)

/-- JSON tree of a `FileEntry` (struct field order). -/
def fileEntryJson (e : FileEntry) : Json :=
  .obj [("path", .str e.path), ("size", .num (e.size : Int)),
        ("sha256", .str e.sha256)]

/-- JSON tree of the manifest (struct field order). -/
def manifestJson (m : BundleManifest) : Json :=
  .obj [("version", .str m.version),
        ("generatedAt", .str m.generatedAt.formatRFC3339),
        ("totalFiles", .num (m.totalFiles : Int)),
        ("files", .arr (m.files.map fileEntryJson)),
        ("contentHash", .str m.contentHash)]

/-- `json.MarshalIndent(manifest, "", "  ")` (cannot fail on these
value types). -/
def marshalManifest (m : BundleManifest) : String := jsonIndent 0 (manifestJson m)

/-- `bundler.Build`: buffer every logical file (registering each with
the manifest builder and the archive writer), then serialize the
manifest, add it to the archive only, and write the archive.  An error
from any per-file step aborts before anything reaches the disk — the
error carries the offending logical path, and no `WriteOutput` exists in
that case. -/
def Build (input : BundleInput) (cfg : BuildConfig) :
    Except String (WriteOutput × BundleResult) :=
  let baseDir := "fluid-diagnose-" ++ cfg.timestamp.formatCompact
  match buildFiles input cfg with
  | .error e => .error e
  | .ok fs =>
    let mb := fs.foldl
      (fun mb pc => mb.AddFile pc.1 (strBytes pc.2).length pc.2)
      (NewManifestBuilder "v1" cfg.timestamp)
    let aw := fs.foldl (fun w pc => w.AddFile pc.1 pc.2)
      (NewArchiveWriter baseDir cfg.timestamp)
    let manifest := mb.Build
    let aw2 := aw.AddFile ManifestFile (marshalManifest manifest)
    let out := aw2.WriteToDisk cfg.outputDir
    .ok (out,
      { archivePath := out.archivePath,
        fileCount := manifest.totalFiles + 1,
        manifest := manifest,
        sizeBytes := out.totalSize })

/-! # Theorems -/

/-! ## Concrete scenario fixtures -/

/-- The §8 scenario input: graph `{"kind":"Dataset"}`, a diagnosis with
zero issues, metadata environment `"test"` (zero creation time, empty
version strings), one log `test.log` = `"test content"`, no
resources. -/
def c2Input : BundleInput :=
  { graph := [("kind", .str "Dataset")],
    diagnosis := { issues := [], score := 0 },
    metadata := { creationTimestamp := ⟨1, 1, 1, 0, 0, 0⟩, fluidVersion := "",
                  k8sVersion := "", environment := "test" },
    logs := [("test.log", "test content")],
    resources := [] }

/-- Redaction enabled, timestamp 2024-01-01T12:00:00Z. -/
def c2Cfg : BuildConfig :=
  { redact := true, timestamp := ⟨2024, 1, 1, 12, 0, 0⟩, outputDir := "out" }

/-! ## C9 — header normalization -/

/-- C9: every entry written into the archive has permission mode 0644
(= 420), the regular-file type flag (`tar.TypeReg` = `'0'`), and
modification, access and change times all equal to the single timestamp
the writer was constructed with (the externally supplied timestamp
threaded through `Build`) — the wall clock is nowhere in reach of
`WriteToDisk`. -/
theorem c9_header_normalization (w : ArchiveWriter) (dir : String) (e : TarEntry)
    (he : e ∈ (w.WriteToDisk dir).entries) :
    e.header.mode = 420 ∧ e.header.typeflag = tarTypeReg ∧
      e.header.mtime = w.ts ∧ e.header.atime = w.ts ∧ e.header.ctime = w.ts := by
  simp only [ArchiveWriter.WriteToDisk, List.mem_map] at he
  obtain ⟨p, -, rfl⟩ := he
  exact ⟨rfl, rfl, rfl, rfl, rfl⟩

/-- Witness for C9 at a concrete writer, output directory and entry. -/
theorem c9_header_normalization_witness :
    let w := (NewArchiveWriter "base" ⟨2024, 1, 1, 12, 0, 0⟩).AddFile "p.txt" "hi"
    let e := (w.WriteToDisk "out").entries.getD 0
      ⟨⟨"", 0, 0, ⟨0,0,0,0,0,0⟩, ⟨0,0,0,0,0,0⟩, ⟨0,0,0,0,0,0⟩, 0⟩, ""⟩
    e.header.mode = 420 ∧ e.header.typeflag = tarTypeReg ∧
      e.header.mtime = w.ts ∧ e.header.atime = w.ts ∧ e.header.ctime = w.ts :=
  c9_header_normalization _ "out" _ (by decide)

/-! ## C5 — aggregate content hash -/

/-- C5: `ManifestBuilder.Build` computes the aggregate `ContentHash` as
the SHA-256 of the per-file digest hex strings concatenated in the
order the entries were added, and it is a pure function of that ordered
digest sequence: two builders carrying identical digest sequences yield
identical aggregate digests, regardless of their timestamps or any
other state. -/
theorem c5_contentHash_pure (mb mb2 : ManifestBuilder) :
    mb.Build.contentHash =
      sha256Hex (strBytes (String.join (mb.manifest.files.map (fun e => e.sha256)))) ∧
    (mb.manifest.files.map (fun e => e.sha256) =
        mb2.manifest.files.map (fun e => e.sha256) →
      mb.Build.contentHash = mb2.Build.contentHash) := by
  constructor
  · rfl
  · intro h
    simp only [ManifestBuilder.Build, sha256HexS]
    rw [h]

/-- Witness for C5: two builders with different versions, timestamps and
paths but identical digest sequences (entries added with the same
content bytes) share the aggregate digest. -/
theorem c5_contentHash_pure_witness :
    let mbA := ((NewManifestBuilder "v1" ⟨2024, 1, 1, 12, 0, 0⟩).AddFile "a" 1 "x").AddFile "b" 2 "yy"
    let mbB := ((NewManifestBuilder "v9" ⟨2031, 7, 5, 3, 2, 1⟩).AddFile "other" 1 "x").AddFile "c" 2 "yy"
    mbA.Build.contentHash = mbB.Build.contentHash :=
  (c5_contentHash_pure _ _).2 (by decide)

/-! ## C10 — duplicate paths: writer overwrites, manifest appends -/

/-- C10: buffering the same path twice in an `ArchiveWriter` leaves
exactly one buffered entry for that path, holding the later content,
and a writer holding exactly those two additions writes an archive with
exactly one entry for the path (content the later one); whereas
`ManifestBuilder.AddFile` called twice with the same path appends two
`FileEntry` records and counts both in `TotalFiles`. -/
theorem c10_overwrite_vs_append (p c1 c2 : String) (w0 : ArchiveWriter)
    (mb : ManifestBuilder) (n1 n2 : Nat) (d1 d2 : String) (b : String) (t : GoTime)
    (dir : String) :
    (((w0.AddFile p c1).AddFile p c2).files.filter fun e => e.1 = p) = [(p, c2)] ∧
    ((((NewArchiveWriter b t).AddFile p c1).AddFile p c2).WriteToDisk dir).entries =
      [{ header := { name := joinPath b p, size := (strBytes c2).length, mode := 420,
                     mtime := t, atime := t, ctime := t, typeflag := tarTypeReg },
         content := c2 }] ∧
    ((mb.AddFile p n1 d1).AddFile p n2 d2).manifest.files =
      mb.manifest.files ++
        [{ path := p, size := n1, sha256 := sha256HexS d1 },
         { path := p, size := n2, sha256 := sha256HexS d2 }] ∧
    ((mb.AddFile p n1 d1).AddFile p n2 d2).manifest.totalFiles =
      mb.manifest.totalFiles + 2 := by
  refine ⟨?_, ?_, ?_, rfl⟩
  · simp [ArchiveWriter.AddFile, mapSet, List.filter_filter]
  · simp [ArchiveWriter.AddFile, mapSet, NewArchiveWriter, ArchiveWriter.WriteToDisk,
      List.insertionSort, List.orderedInsert, mapLookup]
  · simp [ManifestBuilder.AddFile]

/-! ## C4 — structural redaction -/

/-- C4: `scrubMap` (the structural redaction used by `scrubJSON`)
replaces the value of every mapping key whose lower-cased name contains
one of the sensitive substrings with the literal `"[REDACTED]"`,
whatever the value is (so in particular without recursing into it);
values of non-sensitive keys are dispatched — mappings and sequences
are scrubbed recursively, scalar leaves are returned unchanged — and
the example `{"password": "abc123", "name": "x"}` scrubs to
`{"password": "[REDACTED]", "name": "x"}` (also through the
`scrubJSON` entry point). -/
theorem c4_scrubMap_spec :
    (∀ (m : List (String × Json)) (k : String) (v : Json), (k, v) ∈ m →
      sensitiveKey k = true → (k, Json.str maskLiteral) ∈ scrubMap m) ∧
    (∀ (m : List (String × Json)) (k : String) (v : Json), (k, v) ∈ m →
      sensitiveKey k = false → (k, scrubValue v) ∈ scrubMap m) ∧
    (∀ fs, scrubValue (.obj fs) = .obj (scrubMap fs)) ∧
    (∀ xs, scrubValue (.arr xs) = .arr (scrubSlice xs)) ∧
    (∀ s, scrubValue (.str s) = .str s) ∧ (∀ n, scrubValue (.num n) = .num n) ∧
    (∀ b, scrubValue (.bool b) = .bool b) ∧ scrubValue .null = .null ∧
    scrubMap [("password", .str "abc123"), ("name", .str "x")] =
      [("password", .str maskLiteral), ("name", .str "x")] ∧
    scrubJSON (.obj [("password", .str "abc123"), ("name", .str "x")]) =
      .ok (.obj [("password", .str maskLiteral), ("name", .str "x")]) := by
  refine ⟨?_, ?_, fun _ => rfl, fun _ => rfl, fun _ => rfl, fun _ => rfl,
    fun _ => rfl, rfl, rfl, rfl⟩
  · intro m k v
    induction m with
    | nil => intro hm _; cases hm
    | cons hd tl ih =>
      intro hm hk
      rcases List.mem_cons.mp hm with h | h
      · cases h
        simp [scrubMap, hk]
      · rcases hd with ⟨k0, v0⟩
        simpa [scrubMap] using Or.inr (ih h hk)
  · intro m k v
    induction m with
    | nil => intro hm _; cases hm
    | cons hd tl ih =>
      intro hm hk
      rcases List.mem_cons.mp hm with h | h
      · cases h
        simp [scrubMap, hk]
      · rcases hd with ⟨k0, v0⟩
        simpa [scrubMap] using Or.inr (ih h hk)

/-- Witness for C4: a sensitive key (`"Password_hash"`, sensitive by
lower-cased substring) with a deeply nested object value is replaced
wholesale; a non-sensitive key's nested map is recursed into. -/
theorem c4_scrubMap_spec_witness :
    ("Password_hash", Json.str maskLiteral) ∈
      scrubMap [("Password_hash", .obj [("inner", .str "s3cr3t")]), ("name", .str "x")] ∧
    ("outer", scrubValue (.obj [("token", .str "t")])) ∈
      scrubMap [("outer", .obj [("token", .str "t")])] :=
  ⟨c4_scrubMap_spec.1 _ "Password_hash" (.obj [("inner", .str "s3cr3t")])
      (by simp) (by decide),
   c4_scrubMap_spec.2.1 _ "outer" (.obj [("token", .str "t")]) (by simp) (by decide)⟩

/-! ## C2 — the §8 scenario (corrected counts) -/

/-- C2 counterexample: on the scenario input exactly as claimed (no
resources), the manifest's `TotalFiles` is 5 and the result's
`FileCount` is 6 — not 6 and 7 as the claim states.  (The repo's own
test gets 6/7 only because its fixture passes an additional resource
`dataset.yaml` that the claim's input omits.) -/
theorem c2_counterexample :
    (Build c2Input c2Cfg).toOption.map
        (fun x => (x.2.manifest.totalFiles, x.2.fileCount)) = some (5, 6) ∧
    ¬ (Build c2Input c2Cfg).toOption.map
        (fun x => (x.2.manifest.totalFiles, x.2.fileCount)) = some (6, 7) := by
  constructor
  · decide
  · decide

/-- C2 amended: on the scenario input, `Build` produces the archive
`fluid-diagnose-20240101-120000.tar.gz` (in the configured output
directory) whose entries are exactly `manifest.json`, `summary.txt`,
`graph.json`, `diagnosis.json`, `metadata/environment.json` and
`logs/test.log` under the root directory — with
`manifest.TotalFiles = 5` and `result.FileCount = 6`. -/
theorem c2_amended :
    (Build c2Input c2Cfg).toOption.map
        (fun x => (x.1.archivePath, x.1.entries.map fun e => e.header.name,
                   x.2.manifest.totalFiles, x.2.fileCount)) =
      some ("out/fluid-diagnose-20240101-120000.tar.gz",
            ["fluid-diagnose-20240101-120000/diagnosis.json",
             "fluid-diagnose-20240101-120000/graph.json",
             "fluid-diagnose-20240101-120000/logs/test.log",
             "fluid-diagnose-20240101-120000/manifest.json",
             "fluid-diagnose-20240101-120000/metadata/environment.json",
             "fluid-diagnose-20240101-120000/summary.txt"], 5, 6) := by
  decide

/-! ## C6 — fail-closed error handling -/

theorem isPrefixOf_append_of_isPrefixOf {n m : List Char} (r : List Char)
    (h : List.isPrefixOf n m = true) : List.isPrefixOf n (m ++ r) = true := by
  induction n generalizing m with
  | nil => simp [List.isPrefixOf]
  | cons c cs ih =>
    cases m with
    | nil => simp [List.isPrefixOf] at h
    | cons d ds =>
      simp only [List.isPrefixOf, Bool.and_eq_true] at h ⊢
      exact ⟨h.1, ih h.2⟩

theorem isSubstrOf_nil_left (r : List Char) : isSubstrOf [] r = true := by
  cases r <;> simp [isSubstrOf, List.isPrefixOf]

theorem isSubstrOf_append_right {n h : List Char} (r : List Char)
    (hs : isSubstrOf n h = true) : isSubstrOf n (h ++ r) = true := by
  induction h with
  | nil =>
    simp only [isSubstrOf, List.isEmpty_iff] at hs
    subst hs
    simpa using isSubstrOf_nil_left r
  | cons c cs ih =>
    simp only [isSubstrOf, Bool.or_eq_true] at hs ⊢
    rcases hs with hp | hs
    · exact Or.inl (isPrefixOf_append_of_isPrefixOf r hp)
    · exact Or.inr (ih hs)

/-- C6: whenever the resource graph holds a value `encoding/json`
cannot serialize (the only fallible redaction/serialization step in the
pipeline — every other logical file is bytes, a string, or an
always-serializable struct), `Build` returns an error naming the
offending logical path `graph.json`, and never returns a result — so no
archive is written (`WriteToDisk` runs only in the success branch), and
in the redacting configuration the unredactable file is never archived
unredacted. -/
theorem c6_failclosed (input : BundleInput) (cfg : BuildConfig) (t : String)
    (h : firstUnsupported (.obj input.graph) = some t) :
    ∃ e, Build input cfg = .error e ∧ strContains e GraphFile = true ∧
      ∀ out res, Build input cfg ≠ .ok (out, res) := by
  have hmarsh : goMarshalJson (.obj input.graph) =
      .error ("json: unsupported type: " ++ t) := by
    simp [goMarshalJson, h]
  have hsub : ∀ (pre rest : String),
      isSubstrOf GraphFile.data (pre.data ++ GraphFile.data) = true →
      strContains (pre ++ GraphFile ++ ": " ++ rest) GraphFile = true := by
    intro pre rest hbase
    simp only [strContains, String.data_append]
    exact isSubstrOf_append_right _ (isSubstrOf_append_right _ hbase)
  cases hr : cfg.redact
  · refine ⟨"serialization failed for " ++ GraphFile ++ ": " ++
      ("json: unsupported type: " ++ t), ?_, ?_, ?_⟩
    · simp [Build, buildFiles, graphContent, hr, hmarsh, scrubJSON]
    · exact hsub _ _ (by decide)
    · intro out res hok
      simp [Build, buildFiles, graphContent, hr, hmarsh, scrubJSON] at hok
  · refine ⟨"redaction failed for " ++ GraphFile ++ ": " ++
      ("json: unsupported type: " ++ t), ?_, ?_, ?_⟩
    · simp [Build, buildFiles, graphContent, hr, hmarsh, scrubJSON]
    · exact hsub _ _ (by decide)
    · intro out res hok
      simp [Build, buildFiles, graphContent, hr, hmarsh, scrubJSON] at hok

/-- Witness for C6: a graph holding a channel-valued entry (which
`json.Marshal` rejects) aborts the redacting build with an error naming
`graph.json`. -/
theorem c6_failclosed_witness :
    let badInput : BundleInput :=
      { graph := [("conn", .unsupported "chan int")],
        diagnosis := { issues := [], score := 0 },
        metadata := { creationTimestamp := ⟨1, 1, 1, 0, 0, 0⟩, fluidVersion := "",
                      k8sVersion := "", environment := "" },
        logs := [], resources := [] }
    ∃ e, Build badInput c2Cfg = .error e ∧ strContains e GraphFile = true ∧
      ∀ out res, Build badInput c2Cfg ≠ .ok (out, res) :=
  c6_failclosed _ c2Cfg "chan int" (by decide)

/-! ## C1 — determinism (corrected: map iteration order) -/

/-- Two-log input, iteration order `a.log` then `b.log`. -/
def c1InputA : BundleInput := { c2Input with logs := [("a.log", "1"), ("b.log", "2")] }

/-- The same logs map (same key-content pairs), iteration order
`b.log` then `a.log` — Go's runtime may present the map in either
order on any given run. -/
def c1InputB : BundleInput := { c2Input with logs := [("b.log", "2"), ("a.log", "1")] }

set_option maxHeartbeats 16000000 in
/-- C1 counterexample: the two inputs are the *same* `BundleInput` (the
logs lists are permutations of one another — two iteration orders of
one two-entry map — and every other field is equal), and the same fixed
timestamp is supplied, yet the archives differ: the manifest lists its
`files` in `AddFile` order, which follows the map iteration order, so
the archived `manifest.json` content bytes (and hence the archive
bytes) differ between the two runs. -/
theorem c1_counterexample :
    c1InputA.logs.Perm c1InputB.logs ∧
    c1InputA.graph = c1InputB.graph ∧ c1InputA.diagnosis = c1InputB.diagnosis ∧
    c1InputA.metadata = c1InputB.metadata ∧ c1InputA.resources = c1InputB.resources ∧
    (Build c1InputA c2Cfg).toOption.map (fun x => x.1.entries.map fun e => e.content) ≠
      (Build c1InputB c2Cfg).toOption.map (fun x => x.1.entries.map fun e => e.content) := by
  refine ⟨by decide, rfl, rfl, rfl, rfl, by decide⟩

/-- C1 amended: the archive output (entry sequence and total size — the
archive bytes are a fixed function of these) is fully determined by the
input *as iterated*, the redaction flag and the supplied timestamp: two
builds over the same input with the same map iteration sequences and
the same timestamp produce identical archives whatever their output
directories.  (Byte-identity for arbitrary re-iterations of the same
maps holds only when the manifest's file order is unchanged — in
particular whenever logs and resources have at most one entry each.) -/
theorem c1_amended (input : BundleInput) (r : Bool) (t : GoTime) (d1 d2 : String) :
    (Build input ⟨r, t, d1⟩).toOption.map (fun x => (x.1.entries, x.1.totalSize)) =
      (Build input ⟨r, t, d2⟩).toOption.map (fun x => (x.1.entries, x.1.totalSize)) := by
  cases h : graphContent r input.graph with
  | error e => simp [Build, buildFiles, h]
  | ok g =>
    simp only [Build, buildFiles, h, ArchiveWriter.WriteToDisk, Except.toOption,
      Option.map]

/-! ## C7 — sorted archive ordering (corrected: path cleaning) -/

theorem strLeChars_total : ∀ a b : List Char, strLeChars a b = true ∨ strLeChars b a = true := by
  intro a
  induction a with
  | nil => intro b; exact Or.inl rfl
  | cons c cs ih =>
    intro b
    cases b with
    | nil => exact Or.inr rfl
    | cons d ds =>
      by_cases hcd : c = d
      · subst hcd
        simpa [strLeChars] using ih ds
      · rcases Ne.lt_or_lt hcd with h | h
        · exact Or.inl (by simp [strLeChars, hcd, h])
        · exact Or.inr (by simp [strLeChars, Ne.symm hcd, h])

theorem strLeChars_trans : ∀ a b c : List Char, strLeChars a b = true →
    strLeChars b c = true → strLeChars a c = true := by
  intro a
  induction a with
  | nil => intro b c _ _; rfl
  | cons x xs ih =>
    intro b c hab hbc
    cases b with
    | nil => simp [strLeChars] at hab
    | cons y ys =>
      cases c with
      | nil => simp [strLeChars] at hbc
      | cons z zs =>
        by_cases hxy : x = y <;> by_cases hyz : y = z
        · subst hxy; subst hyz
          simp only [strLeChars, if_pos rfl] at hab hbc ⊢
          exact ih ys zs hab hbc
        · subst hxy
          simp only [strLeChars, if_pos rfl, if_neg hyz] at hbc ⊢
          exact hbc
        · subst hyz
          simp only [strLeChars, if_pos rfl, if_neg hxy] at hab ⊢
          exact hab
        · simp only [strLeChars, if_neg hxy, if_neg hyz, decide_eq_true_eq] at hab hbc
          have hxz : x < z := lt_trans hab hbc
          simp [strLeChars, ne_of_lt hxz, hxz]

instance : IsTotal String fun a b => strLe a b = true :=
  ⟨fun a b => strLeChars_total a.data b.data⟩

instance : IsTrans String fun a b => strLe a b = true :=
  ⟨fun a b c => strLeChars_trans a.data b.data c.data⟩

theorem strLtChars_of_strLeChars_ne : ∀ a b : List Char, strLeChars a b = true →
    a ≠ b → strLtChars a b = true := by
  intro a
  induction a with
  | nil =>
    intro b _ hne
    cases b with
    | nil => exact absurd rfl hne
    | cons d ds => rfl
  | cons c cs ih =>
    intro b hle hne
    cases b with
    | nil => simp [strLeChars] at hle
    | cons d ds =>
      by_cases hcd : c = d
      · subst hcd
        simp only [strLeChars, if_pos rfl] at hle
        simp only [strLtChars, if_pos rfl]
        exact ih ds hle (by intro h; exact hne (by rw [h]))
      · simp only [strLeChars, if_neg hcd] at hle
        simpa [strLtChars, if_neg hcd] using hle

theorem strLt_of_strLe_ne {a b : String} (hle : strLe a b = true) (hne : a ≠ b) :
    strLt a b = true :=
  strLtChars_of_strLeChars_ne a.data b.data hle
    (fun h => hne (by cases a; cases b; exact congrArg String.mk h))

theorem strLtChars_append_left : ∀ (x a b : List Char),
    strLtChars (x ++ a) (x ++ b) = strLtChars a b := by
  intro x
  induction x with
  | nil => intro a b; rfl
  | cons c cs ih => intro a b; simp [strLtChars, ih]

/-- Keys of a `mapSet` result stay duplicate-free. -/
theorem mapSet_keys_nodup (m : List (String × String)) (k v : String)
    (h : (m.map Prod.fst).Nodup) : ((mapSet m k v).map Prod.fst).Nodup := by
  simp only [mapSet, List.map_cons, List.nodup_cons]
  constructor
  · intro hk
    rcases List.mem_map.mp hk with ⟨e, he, hek⟩
    rcases List.mem_filter.mp he with ⟨-, hne⟩
    exact absurd hek (of_decide_eq_true hne)
  · exact List.Nodup.sublist (List.Sublist.map _ (List.filter_sublist m)) h

/-- Keys of a writer built by `AddFile` folds are duplicate-free. -/
theorem fold_addFile_keys_nodup (ops : List (String × String)) (w : ArchiveWriter)
    (h : (w.files.map Prod.fst).Nodup) :
    (((ops.foldl (fun w pc => w.AddFile pc.1 pc.2) w).files.map Prod.fst)).Nodup := by
  induction ops generalizing w with
  | nil => exact h
  | cons pc tl ih =>
    exact ih _ (mapSet_keys_nodup _ _ _ h)

/-- Keys of a writer built by `AddFile` folds come from the initial
buffer or the operations. -/
theorem fold_addFile_keys_subset (ops : List (String × String)) (w : ArchiveWriter)
    (k : String)
    (hk : k ∈ (ops.foldl (fun w pc => w.AddFile pc.1 pc.2) w).files.map Prod.fst) :
    k ∈ w.files.map Prod.fst ∨ k ∈ ops.map Prod.fst := by
  induction ops generalizing w with
  | nil => exact Or.inl hk
  | cons pc tl ih =>
    rcases ih _ hk with h | h
    · simp only [ArchiveWriter.AddFile, mapSet, List.map_cons, List.mem_cons] at h
      rcases h with h | h
      · exact Or.inr (by simp [h])
      · rcases List.mem_map.mp h with ⟨e, he, hek⟩
        exact Or.inl (List.mem_map.mpr ⟨e, (List.mem_filter.mp he).1, hek⟩)
    · exact Or.inr (List.mem_cons_of_mem _ h)

theorem fold_addFile_baseDir (ops : List (String × String)) (w : ArchiveWriter) :
    (ops.foldl (fun w pc => w.AddFile pc.1 pc.2) w).baseDir = w.baseDir := by
  induction ops generalizing w with
  | nil => rfl
  | cons pc tl ih => exact ih _

/-- C7 counterexample: a buffered path on which `filepath.Join`'s
cleaning is not plain concatenation (`"./z"`) sorts before `"a"` as a
relative path but yields the later entry name `base/z`, so the written
entries are not in increasing path order. -/
theorem c7_counterexample :
    ¬ List.Pairwise (fun x y => strLt x y = true)
      (((((NewArchiveWriter "base" ⟨2024, 1, 1, 12, 0, 0⟩).AddFile "a" "1").AddFile
            "./z" "2").WriteToDisk "out").entries.map fun e => e.header.name) := by
  decide

/-- C7 amended: for every set of buffered files whose paths join with
the base directory by plain concatenation (path cleaning leaves
`base/p` alone — true of all clean relative paths, in particular every
path the pipeline itself buffers), the written entries appear in
strictly increasing byte-wise lexicographic order of their paths,
regardless of the order `AddFile` was called. -/
theorem c7_amended (ops : List (String × String)) (b : String) (t : GoTime)
    (dir : String)
    (hb : ∀ pc ∈ ops, joinPath b pc.1 = b ++ "/" ++ pc.1) :
    List.Pairwise (fun x y => strLt x y = true)
      ((((ops.foldl (fun w pc => w.AddFile pc.1 pc.2)
          (NewArchiveWriter b t)).WriteToDisk dir).entries).map fun e => e.header.name) := by
  set w := ops.foldl (fun w pc => w.AddFile pc.1 pc.2) (NewArchiveWriter b t) with hw
  have hnodup : (w.files.map Prod.fst).Nodup :=
    fold_addFile_keys_nodup ops _ (by simp [NewArchiveWriter])
  have hperm := List.perm_insertionSort (fun a b : String => strLe a b = true)
    (w.files.map Prod.fst)
  have hsortnodup : (List.insertionSort (fun a b : String => strLe a b = true)
      (w.files.map Prod.fst)).Nodup := (hperm.nodup_iff).mpr hnodup
  have hsorted := List.sorted_insertionSort (fun a b : String => strLe a b = true)
    (w.files.map Prod.fst)
  have hstrict : List.Pairwise (fun x y : String => strLt x y = true)
      (List.insertionSort (fun a b : String => strLe a b = true)
        (w.files.map Prod.fst)) :=
    (hsorted.and hsortnodup).imp fun h => strLt_of_strLe_ne h.1 h.2
  have hmem : ∀ p ∈ List.insertionSort (fun a b : String => strLe a b = true)
      (w.files.map Prod.fst), joinPath b p = b ++ "/" ++ p := by
    intro p hp
    have hp2 : p ∈ w.files.map Prod.fst := hperm.mem_iff.mp hp
    rcases fold_addFile_keys_subset ops _ p hp2 with h | h
    · simp [NewArchiveWriter] at h
    · rcases List.mem_map.mp h with ⟨pc, hpc, rfl⟩
      exact hb pc hpc
  have hjoined : List.Pairwise
      (fun x y : String => strLt (joinPath w.baseDir x) (joinPath w.baseDir y) = true)
      (List.insertionSort (fun a b : String => strLe a b = true)
        (w.files.map Prod.fst)) := by
    have hbase : w.baseDir = b := fold_addFile_baseDir ops _
    refine hstrict.imp_of_mem ?_
    intro p q hp hq hlt
    rw [hbase, hmem p hp, hmem q hq]
    show strLtChars (b ++ "/" ++ p).data (b ++ "/" ++ q).data = true
    simpa [String.data_append, List.append_assoc, strLtChars_append_left] using hlt
  simp only [ArchiveWriter.WriteToDisk, List.map_map]
  exact List.pairwise_map.mpr (by simpa using hjoined)

/-- Witness for C7 amended at a concrete writer: three clean paths
added out of order emit strictly increasing entry names. -/
theorem c7_amended_witness :
    List.Pairwise (fun x y => strLt x y = true)
      (((([("z.txt", "3"), ("a.txt", "1"), ("logs/m.log", "2")].foldl
            (fun w pc => w.AddFile pc.1 pc.2)
            (NewArchiveWriter "base" ⟨2024, 1, 1, 12, 0, 0⟩)).WriteToDisk
          "out").entries).map fun e => e.header.name) :=
  c7_amended _ "base" _ "out" (by decide)

/-! ## C3 — manifest–content consistency (corrected: path collisions) -/

/-- The bytes stored in the archive at entry name `n` (first matching
entry — entry names are unique in every archive the writer emits). -/
def findEntry : List TarEntry → String → Option String
  | [], _ => none
  | e :: tl, n => if e.header.name = n then some e.content else findEntry tl n

/-- What `ManifestBuilder.AddFile` records for one logical file. -/
def mkFileEntry (pc : String × String) : FileEntry :=
  { path := pc.1, size := (strBytes pc.2).length, sha256 := sha256HexS pc.2 }

theorem mb_fold_files (fs : List (String × String)) (mb : ManifestBuilder) :
    (fs.foldl (fun mb pc => mb.AddFile pc.1 (strBytes pc.2).length pc.2) mb).manifest.files
      = mb.manifest.files ++ fs.map mkFileEntry := by
  induction fs generalizing mb with
  | nil => simp
  | cons pc tl ih =>
    rw [List.foldl_cons, ih]
    simp [ManifestBuilder.AddFile, mkFileEntry]

theorem fold_addFile_files (ops : List (String × String)) (w : ArchiveWriter) :
    (ops.foldl (fun w pc => w.AddFile pc.1 pc.2) w).files
      = ops.foldl (fun m pc => mapSet m pc.1 pc.2) w.files := by
  induction ops generalizing w with
  | nil => rfl
  | cons pc tl ih => exact ih _

theorem mapLookup_mapSet_self (m : List (String × String)) (k v : String) :
    mapLookup (mapSet m k v) k = some v := by
  simp [mapSet, mapLookup]

theorem mapLookup_filter_ne (m : List (String × String)) (k p : String)
    (h : p ≠ k) : mapLookup (m.filter fun e => e.1 ≠ k) p = mapLookup m p := by
  induction m with
  | nil => rfl
  | cons e tl ih =>
    rcases e with ⟨k0, v0⟩
    by_cases hk0 : k0 = k
    · subst hk0
      have hk0p : ¬ (k0 = p) := fun hh => h hh.symm
      simp only [ne_eq, decide_not] at ih
      simp [List.filter_cons, mapLookup, hk0p, ih]
    · simp only [ne_eq, decide_not] at ih
      simp [List.filter_cons, hk0, mapLookup, ih]

theorem mapLookup_mapSet_ne (m : List (String × String)) (k v p : String)
    (h : p ≠ k) : mapLookup (mapSet m k v) p = mapLookup m p := by
  have hkp : ¬ (k = p) := fun hh => h hh.symm
  simp only [mapSet, mapLookup, if_neg hkp]
  exact mapLookup_filter_ne m k p h

theorem mapLookup_fold_not_mem (fs : List (String × String))
    (m0 : List (String × String)) (p : String) (h : p ∉ fs.map Prod.fst) :
    mapLookup (fs.foldl (fun m pc => mapSet m pc.1 pc.2) m0) p = mapLookup m0 p := by
  induction fs generalizing m0 with
  | nil => rfl
  | cons pc tl ih =>
    simp only [List.map_cons, List.mem_cons, not_or] at h
    rw [List.foldl_cons, ih _ h.2, mapLookup_mapSet_ne _ _ _ _ h.1]

theorem mapLookup_fold (fs : List (String × String)) (m0 : List (String × String))
    (p c : String) (hnd : (fs.map Prod.fst).Nodup) (hin : (p, c) ∈ fs) :
    mapLookup (fs.foldl (fun m pc => mapSet m pc.1 pc.2) m0) p = some c := by
  induction fs generalizing m0 with
  | nil => cases hin
  | cons pc tl ih =>
    simp only [List.map_cons, List.nodup_cons] at hnd
    rcases List.mem_cons.mp hin with h | h
    · cases h
      rw [List.foldl_cons, mapLookup_fold_not_mem _ _ _ hnd.1, mapLookup_mapSet_self]
    · exact ih _ hnd.2 h

theorem mapLookup_mem (m : List (String × String)) (p c : String)
    (h : mapLookup m p = some c) : p ∈ m.map Prod.fst := by
  induction m with
  | nil => cases h
  | cons e tl ih =>
    rcases e with ⟨k0, v0⟩
    by_cases hk : k0 = p
    · simp [hk]
    · simp only [mapLookup, if_neg hk] at h
      exact List.mem_cons_of_mem _ (ih h)

theorem foldMapSet_keys_subset (fs : List (String × String))
    (m0 : List (String × String)) (k : String)
    (hk : k ∈ (fs.foldl (fun m pc => mapSet m pc.1 pc.2) m0).map Prod.fst) :
    k ∈ m0.map Prod.fst ∨ k ∈ fs.map Prod.fst := by
  induction fs generalizing m0 with
  | nil => exact Or.inl hk
  | cons pc tl ih =>
    rcases ih _ hk with h | h
    · simp only [mapSet, List.map_cons, List.mem_cons] at h
      rcases h with h | h
      · exact Or.inr (by simp [h])
      · rcases List.mem_map.mp h with ⟨e, he, hek⟩
        exact Or.inl (List.mem_map.mpr ⟨e, (List.mem_filter.mp he).1, hek⟩)
    · exact Or.inr (List.mem_cons_of_mem _ h)

/-- The entry `WriteToDisk` emits for one buffered path. -/
def tarEmit (w : ArchiveWriter) (p : String) : TarEntry :=
  { header := { name := joinPath w.baseDir p,
                size := (strBytes ((mapLookup w.files p).getD "")).length,
                mode := 420, mtime := w.ts, atime := w.ts, ctime := w.ts,
                typeflag := tarTypeReg },
    content := (mapLookup w.files p).getD "" }

theorem writeToDisk_entries (w : ArchiveWriter) (dir : String) :
    (w.WriteToDisk dir).entries =
      (List.insertionSort (fun a b : String => strLe a b = true)
        (w.files.map Prod.fst)).map (tarEmit w) := rfl

theorem findEntry_map_eq (K : List String) (f : String → TarEntry) (p : String)
    (hp : p ∈ K) (hinj : ∀ q ∈ K, (f q).header.name = (f p).header.name → q = p) :
    findEntry (K.map f) (f p).header.name = some (f p).content := by
  induction K with
  | nil => cases hp
  | cons q tl ih =>
    simp only [List.map_cons, findEntry]
    by_cases hq : (f q).header.name = (f p).header.name
    · have hqp : q = p := hinj q (List.mem_cons_self _ _) hq
      subst hqp
      simp
    · rw [if_neg hq]
      rcases List.mem_cons.mp hp with h | h
      · exact absurd (h ▸ rfl) hq
      · exact ih h fun r hr => hinj r (List.mem_cons_of_mem _ hr)

/-- C3 amended: whenever `Build` succeeds and the full archive entry
names derived from the manifest's paths (plus the archived
`manifest.json` itself) are pairwise distinct — which `filepath.Join`'s
path cleaning can violate for colliding logical paths, see the
counterexample — the digest recorded in every manifest entry equals the
SHA-256 of the bytes actually stored at that entry's path inside the
written archive. -/
theorem c3_amended (input : BundleInput) (cfg : BuildConfig) (out : WriteOutput)
    (res : BundleResult) (hok : Build input cfg = .ok (out, res))
    (hnd : ((res.manifest.files.map fun fe =>
        joinPath ("fluid-diagnose-" ++ cfg.timestamp.formatCompact) fe.path) ++
        [joinPath ("fluid-diagnose-" ++ cfg.timestamp.formatCompact) ManifestFile]).Nodup)
    (fe : FileEntry) (hfe : fe ∈ res.manifest.files) :
    ∃ c, findEntry out.entries
        (joinPath ("fluid-diagnose-" ++ cfg.timestamp.formatCompact) fe.path) = some c ∧
      sha256HexS c = fe.sha256 := by
  cases hbf : buildFiles input cfg with
  | error e => simp [Build, hbf] at hok
  | ok fs =>
    simp only [Build, hbf, Except.ok.injEq, Prod.mk.injEq] at hok
    obtain ⟨hout, hres⟩ := hok
    subst hout
    subst hres
    have hfiles : (((fs.foldl (fun mb pc =>
        mb.AddFile pc.1 (strBytes pc.2).length pc.2)
        (NewManifestBuilder "v1" cfg.timestamp)).Build).files) = fs.map mkFileEntry := by
      simp [ManifestBuilder.Build, mb_fold_files, NewManifestBuilder]
    simp only [hfiles] at hfe hnd
    obtain ⟨pc, hpc, rfl⟩ := List.mem_map.mp hfe
    rw [List.map_map] at hnd
    have hnd2 := List.nodup_append.mp hnd
    have hndA : (fs.map fun q =>
        joinPath ("fluid-diagnose-" ++ cfg.timestamp.formatCompact) q.1).Nodup := hnd2.1
    have hdisj : ∀ q ∈ fs, joinPath ("fluid-diagnose-" ++ cfg.timestamp.formatCompact) q.1 ≠
        joinPath ("fluid-diagnose-" ++ cfg.timestamp.formatCompact) ManifestFile := by
      intro q hq heq
      exact hnd2.2.2 (List.mem_map.mpr ⟨q, hq, rfl⟩) (by simp [mkFileEntry, heq])
    have hkeysnd : (fs.map Prod.fst).Nodup := by
      have h2 : ((fs.map Prod.fst).map fun p =>
          joinPath ("fluid-diagnose-" ++ cfg.timestamp.formatCompact) p).Nodup := by
        rw [List.map_map]
        exact hndA
      exact h2.of_map
    have hpne : pc.1 ≠ ManifestFile := by
      intro h
      exact hdisj pc hpc (by rw [h])
    have hawfiles : ((fs.foldl (fun w q => w.AddFile q.1 q.2)
        (NewArchiveWriter ("fluid-diagnose-" ++ cfg.timestamp.formatCompact)
          cfg.timestamp)).AddFile ManifestFile
          (marshalManifest ((fs.foldl (fun mb q =>
            mb.AddFile q.1 (strBytes q.2).length q.2)
            (NewManifestBuilder "v1" cfg.timestamp)).Build))).files
        = mapSet (fs.foldl (fun m q => mapSet m q.1 q.2) []) ManifestFile
            (marshalManifest ((fs.foldl (fun mb q =>
              mb.AddFile q.1 (strBytes q.2).length q.2)
              (NewManifestBuilder "v1" cfg.timestamp)).Build)) := by
      show mapSet _ ManifestFile _ = _
      rw [fold_addFile_files fs (NewArchiveWriter
        ("fluid-diagnose-" ++ cfg.timestamp.formatCompact) cfg.timestamp)]
      rfl
    have hawbase : ((fs.foldl (fun w q => w.AddFile q.1 q.2)
        (NewArchiveWriter ("fluid-diagnose-" ++ cfg.timestamp.formatCompact)
          cfg.timestamp)).AddFile ManifestFile
          (marshalManifest ((fs.foldl (fun mb q =>
            mb.AddFile q.1 (strBytes q.2).length q.2)
            (NewManifestBuilder "v1" cfg.timestamp)).Build))).baseDir
        = "fluid-diagnose-" ++ cfg.timestamp.formatCompact := by
      show (fs.foldl (fun w q => w.AddFile q.1 q.2)
        (NewArchiveWriter ("fluid-diagnose-" ++ cfg.timestamp.formatCompact)
          cfg.timestamp)).baseDir = _
      rw [fold_addFile_baseDir]
      rfl
    generalize hW : ((fs.foldl (fun w q => w.AddFile q.1 q.2)
        (NewArchiveWriter ("fluid-diagnose-" ++ cfg.timestamp.formatCompact)
          cfg.timestamp)).AddFile ManifestFile
          (marshalManifest ((fs.foldl (fun mb q =>
            mb.AddFile q.1 (strBytes q.2).length q.2)
            (NewManifestBuilder "v1" cfg.timestamp)).Build))) = W at hawfiles hawbase ⊢
    have hlook : mapLookup W.files pc.1 = some pc.2 := by
      rw [hawfiles, mapLookup_mapSet_ne _ _ _ _ hpne]
      exact mapLookup_fold fs [] pc.1 pc.2 hkeysnd hpc
    have hpk : pc.1 ∈ W.files.map Prod.fst := mapLookup_mem _ _ _ hlook
    have hqmem : ∀ q ∈ W.files.map Prod.fst, q = ManifestFile ∨ q ∈ fs.map Prod.fst := by
      intro q hq
      rw [hawfiles] at hq
      simp only [mapSet, List.map_cons, List.mem_cons] at hq
      rcases hq with h | h
      · exact Or.inl h
      · rcases List.mem_map.mp h with ⟨e, he, hek⟩
        rcases foldMapSet_keys_subset fs [] q
            (List.mem_map.mpr ⟨e, (List.mem_filter.mp he).1, hek⟩) with h2 | h2
        · cases h2
        · exact Or.inr h2
    have hperm := List.perm_insertionSort (fun a b : String => strLe a b = true)
      (W.files.map Prod.fst)
    have hpK : pc.1 ∈ List.insertionSort (fun a b : String => strLe a b = true)
        (W.files.map Prod.fst) := hperm.mem_iff.mpr hpk
    have hinj : ∀ q ∈ List.insertionSort (fun a b : String => strLe a b = true)
        (W.files.map Prod.fst),
        joinPath W.baseDir q = joinPath W.baseDir pc.1 → q = pc.1 := by
      intro q hq heq
      rw [hawbase] at heq
      rcases hqmem q (hperm.mem_iff.mp hq) with h | h
      · subst h
        exact absurd heq.symm (hdisj pc hpc)
      · exact List.inj_on_of_nodup_map
          (f := fun p => joinPath ("fluid-diagnose-" ++ cfg.timestamp.formatCompact) p)
          (by rw [List.map_map]; exact hndA) h
          (List.mem_map.mpr ⟨pc, hpc, rfl⟩) heq
    have hfind := findEntry_map_eq
      (List.insertionSort (fun a b : String => strLe a b = true)
        (W.files.map Prod.fst))
      (tarEmit W) pc.1 hpK (fun q hq heq => hinj q hq heq)
    refine ⟨(mapLookup W.files pc.1).getD "", ?_, ?_⟩
    · rw [writeToDisk_entries, ← hawbase]
      exact hfind
    · rw [hlook]
      rfl

/-- Input whose two resource keys `"a"` and `"./a"` are distinct map
keys but clean to the same archive path `resources/a`. -/
def c3Input : BundleInput :=
  { graph := [], diagnosis := { issues := [], score := 0 },
    metadata := { creationTimestamp := ⟨1, 1, 1, 0, 0, 0⟩, fluidVersion := "",
                  k8sVersion := "", environment := "" },
    logs := [], resources := [("a", "v1"), ("./a", "v2")] }

def c3Cfg : BuildConfig :=
  { redact := false, timestamp := ⟨2024, 1, 1, 12, 0, 0⟩, outputDir := "o" }

/-- C3 counterexample: `Build` succeeds on `c3Input`, but the manifest's
fifth entry (logical path `resources/a` carrying the digest of `"v1"`)
does not match the bytes stored at that path in the archive — the
writer's map kept only the later content `"v2"` for the collided path,
while `ManifestBuilder.AddFile` recorded both entries.  (Checked per
manifest entry: recorded digest versus digest of the archived bytes at
the entry's path.) -/
theorem c3_counterexample :
    (Build c3Input c3Cfg).toOption.map (fun x =>
        x.2.manifest.files.map fun fe =>
          decide ((findEntry x.1.entries
              (joinPath "fluid-diagnose-20240101-120000" fe.path)).map sha256HexS =
            some fe.sha256))
      = some [true, true, true, true, false, true] := by
  decide

/-- Collision-free input for the C3 witness. -/
def c3wIn : BundleInput :=
  { graph := [("k", .str "v")], diagnosis := { issues := [], score := 0 },
    metadata := { creationTimestamp := ⟨1, 1, 1, 0, 0, 0⟩, fluidVersion := "",
                  k8sVersion := "", environment := "" },
    logs := [("l.log", "x")], resources := [] }

def c3wCfg : BuildConfig :=
  { redact := false, timestamp := ⟨2024, 1, 1, 12, 0, 0⟩, outputDir := "o" }

/-- Witness for C3 amended on a concrete collision-free build: every
manifest entry's digest matches the archived bytes. -/
theorem c3_amended_witness :
    ∃ out res, Build c3wIn c3wCfg = .ok (out, res) ∧
      ∀ fe ∈ res.manifest.files, ∃ c,
        findEntry out.entries
            (joinPath ("fluid-diagnose-" ++ c3wCfg.timestamp.formatCompact) fe.path) =
          some c ∧ sha256HexS c = fe.sha256 := by
  rcases hres : Build c3wIn c3wCfg with e | ⟨out, res⟩
  · have hs : (Build c3wIn c3wCfg).toOption.isSome = true := by decide
    rw [hres] at hs
    simp [Except.toOption] at hs
  · refine ⟨out, res, rfl, fun fe hfe =>
      c3_amended c3wIn c3wCfg out res hres ?_ fe hfe⟩
    have h0 : (Build c3wIn c3wCfg).toOption.map (fun x =>
        (x.2.manifest.files.map fun fe =>
          joinPath ("fluid-diagnose-" ++ c3wCfg.timestamp.formatCompact) fe.path) ++
          [joinPath ("fluid-diagnose-" ++ c3wCfg.timestamp.formatCompact) ManifestFile]) =
        some ["fluid-diagnose-20240101-120000/graph.json",
              "fluid-diagnose-20240101-120000/diagnosis.json",
              "fluid-diagnose-20240101-120000/metadata/environment.json",
              "fluid-diagnose-20240101-120000/summary.txt",
              "fluid-diagnose-20240101-120000/logs/l.log",
              "fluid-diagnose-20240101-120000/manifest.json"] := by decide
    rw [hres] at h0
    simp only [Except.toOption, Option.map] at h0
    rw [Option.some.inj h0]
    decide

/-! ## C8 — pattern-based redaction -/

theorem valueChar_not_quote {c : Char} (h : isValueChar c = true) :
    isQuoteChar c = false := by
  simp only [isValueChar, Bool.not_eq_true', Bool.or_eq_false_iff] at h
  exact h.1

theorem valueChar_not_space {c : Char} (h : isValueChar c = true) :
    isSpaceRE c = false := by
  simp only [isValueChar, Bool.not_eq_true', Bool.or_eq_false_iff] at h
  exact h.2

theorem space_not_value {c : Char} (h : isSpaceRE c = true) :
    isValueChar c = false := by
  simp [isValueChar, h]

theorem space_not_quote {c : Char} (h : isSpaceRE c = true) :
    isQuoteChar c = false := by
  by_contra hq
  simp only [Bool.not_eq_false, isQuoteChar, Bool.or_eq_true, decide_eq_true_eq] at hq
  rcases hq with rfl | rfl <;> exact absurd h (by decide)

theorem ciMatchKw_decomp : ∀ (k s m rest : List Char),
    ciMatchKw k s = some (m, rest) → s = m ++ rest := by
  intro k
  induction k with
  | nil =>
    intro s m rest h
    simp only [ciMatchKw, Option.some.injEq, Prod.mk.injEq] at h
    rw [← h.1, ← h.2]
    rfl
  | cons kc ks ih =>
    intro s m rest h
    cases s with
    | nil => cases h
    | cons c cs =>
      simp only [ciMatchKw] at h
      by_cases hc : Char.toLower c = kc
      · rw [if_pos hc] at h
        cases hm : ciMatchKw ks cs with
        | none => rw [hm] at h; cases h
        | some pr =>
          rw [hm] at h
          rcases pr with ⟨m2, rest2⟩
          simp only [Option.some.injEq, Prod.mk.injEq] at h
          rw [← h.1, ← h.2]
          simpa using ih cs m2 rest2 hm
      · rw [if_neg hc] at h
        cases h

theorem tryKeywords_decomp : ∀ (kws : List String) (s m rest : List Char),
    tryKeywords kws s = some (m, rest) → s = m ++ rest := by
  intro kws
  induction kws with
  | nil => intro s m rest h; cases h
  | cons kw tl ih =>
    intro s m rest h
    simp only [tryKeywords] at h
    cases hm : ciMatchKw kw.data s with
    | none => rw [hm] at h; exact ih s m rest h
    | some pr =>
      rw [hm] at h
      cases h
      exact ciMatchKw_decomp kw.data s m rest hm

theorem dropOneQuote_length_le (l : List Char) : (dropOneQuote l).length ≤ l.length := by
  cases l with
  | nil => exact Nat.le_refl _
  | cons c cs =>
    simp only [dropOneQuote]
    by_cases hc : isQuoteChar c
    · simp [hc]
    · simp [hc]

theorem length_dropWhile_le (p : Char → Bool) (l : List Char) :
    (l.dropWhile p).length ≤ l.length := by
  induction l with
  | nil => exact Nat.le_refl _
  | cons c cs ih =>
    rw [List.dropWhile_cons]
    by_cases hc : p c = true
    · simp only [hc, if_true]
      exact Nat.le_succ_of_le ih
    · simp [hc]

theorem matchValue_shrink {s rest : List Char} (h : matchValue s = some rest) :
    rest.length < s.length := by
  cases s with
  | nil => cases h
  | cons c cs =>
    by_cases hq : isQuoteChar c = true
    · cases cs with
      | nil => simp [matchValue, hq] at h
      | cons d ds =>
        by_cases hd : isValueChar d = true
        · have hh : matchValue (c :: d :: ds) =
              some (dropOneQuote ((d :: ds).dropWhile isValueChar)) := by
            simp [matchValue, hq, hd]
          rw [hh] at h
          injection h with h
          rw [← h]
          calc (dropOneQuote ((d :: ds).dropWhile isValueChar)).length
              ≤ ((d :: ds).dropWhile isValueChar).length := dropOneQuote_length_le _
            _ ≤ (d :: ds).length := length_dropWhile_le _ _
            _ < (c :: d :: ds).length := by simp
        · simp [matchValue, hq, hd] at h
    · by_cases hv : isValueChar c = true
      · have hh : matchValue (c :: cs) =
            some (dropOneQuote ((c :: cs).dropWhile isValueChar)) := by
          simp [matchValue, hq, hv]
        rw [hh] at h
        injection h with h
        rw [← h, List.dropWhile_cons, if_pos hv]
        calc (dropOneQuote (cs.dropWhile isValueChar)).length
            ≤ (cs.dropWhile isValueChar).length := dropOneQuote_length_le _
          _ ≤ cs.length := length_dropWhile_le _ _
          _ < (c :: cs).length := by simp
      · simp [matchValue, hq, hv] at h

theorem matchAfterKw_shrink {s rest : List Char} (h : matchAfterKw s = some rest) :
    rest.length < s.length := by
  cases hdw : s.dropWhile isSpaceRE with
  | nil => simp [matchAfterKw, hdw] at h
  | cons c s2 =>
    by_cases hc : (c = ':' || c = '=') = true
    · have hh : matchAfterKw s = matchValue (s2.dropWhile isSpaceRE) := by
        simp [matchAfterKw, hdw, hc]
      rw [hh] at h
      have h1 := matchValue_shrink h
      have h2 : (s2.dropWhile isSpaceRE).length ≤ s2.length := length_dropWhile_le _ _
      have h3 : (c :: s2).length ≤ s.length := by
        rw [← hdw]
        exact length_dropWhile_le _ _
      simp only [List.length_cons] at h3
      omega
    · simp [matchAfterKw, hdw, hc] at h

theorem matchAt_shrink {s m rest : List Char} (h : matchAt s = some (m, rest)) :
    rest.length < s.length := by
  cases ht : tryKeywords redactKeywords s with
  | none => simp [matchAt, ht] at h
  | some pr =>
    rcases pr with ⟨kwText, afterKw⟩
    cases hm : matchAfterKw afterKw with
    | none => simp [matchAt, ht, hm] at h
    | some rest2 =>
      have hh : matchAt s = some (kwText, rest2) := by simp [matchAt, ht, hm]
      rw [hh] at h
      simp only [Option.some.injEq, Prod.mk.injEq] at h
      have hs : s = kwText ++ afterKw := tryKeywords_decomp _ _ _ _ ht
      have h2 := matchAfterKw_shrink hm
      rw [← h.2, hs]
      simp only [List.length_append]
      omega

theorem matchAt_nil : matchAt [] = none := rfl

theorem redactScan_fuel : ∀ (n : Nat) (s : List Char) (f1 f2 : Nat),
    s.length ≤ n → s.length ≤ f1 → s.length ≤ f2 →
    redactScan f1 s = redactScan f2 s := by
  intro n
  induction n with
  | zero =>
    intro s f1 f2 hn _ _
    have hs : s = [] := List.length_eq_zero.mp (Nat.le_zero.mp hn)
    subst hs
    cases f1 <;> cases f2 <;> rfl
  | succ n ih =>
    intro s f1 f2 hn h1 h2
    cases s with
    | nil => cases f1 <;> cases f2 <;> rfl
    | cons c cs =>
      simp only [List.length_cons] at hn h1 h2
      cases f1 with
      | zero => omega
      | succ f1 =>
        cases f2 with
        | zero => omega
        | succ f2 =>
          cases hm : matchAt (c :: cs) with
          | none =>
            show redactScan (f1 + 1) (c :: cs) = redactScan (f2 + 1) (c :: cs)
            simp only [redactScan, hm]
            rw [ih cs f1 f2 (by omega) (by omega) (by omega)]
          | some pr =>
            rcases pr with ⟨kw, rest⟩
            have hr := matchAt_shrink hm
            simp only [List.length_cons] at hr
            show redactScan (f1 + 1) (c :: cs) = redactScan (f2 + 1) (c :: cs)
            simp only [redactScan, hm]
            rw [ih rest f1 f2 (by omega) (by omega) (by omega)]

theorem redactChars_match {s m rest : List Char} (h : matchAt s = some (m, rest)) :
    redactChars s = m ++ maskRepl ++ redactChars rest := by
  cases s with
  | nil => rw [matchAt_nil] at h; cases h
  | cons c cs =>
    have hlt := matchAt_shrink h
    simp only [List.length_cons] at hlt
    show redactScan (cs.length + 1) (c :: cs) = _
    simp only [redactScan, h]
    rw [redactScan_fuel cs.length rest cs.length rest.length (by omega) (by omega)
      (Nat.le_refl _)]
    simp [redactChars, List.append_assoc]

theorem redactChars_nomatch {c : Char} {cs : List Char}
    (h : matchAt (c :: cs) = none) : redactChars (c :: cs) = c :: redactChars cs := by
  show redactScan (cs.length + 1) (c :: cs) = _
  simp only [redactScan, h]
  rfl

theorem ciMatchKw_self : ∀ (m rest : List Char),
    ciMatchKw (m.map Char.toLower) (m ++ rest) = some (m, rest) := by
  intro m
  induction m with
  | nil => intro rest; rfl
  | cons c cs ih =>
    intro rest
    simp [ciMatchKw, ih]

theorem ciMatchKw_head_ne (k : Char) (ks : List Char) (c : Char) (cs : List Char)
    (h : Char.toLower c ≠ k) : ciMatchKw (k :: ks) (c :: cs) = none := by
  simp [ciMatchKw, h]

/-- The keyword alternation matches the keyword at the head of the
input: the four alternatives start with four distinct letters, so only
the branch for the keyword itself (case-insensitively) can fire. -/
theorem tryKeywords_build (kw : List Char) (kwL : String) (rest : List Char)
    (h : kwL ∈ redactKeywords) (hc : kw.map Char.toLower = kwL.data) :
    tryKeywords redactKeywords (kw ++ rest) = some (kw, rest) := by
  have hself : ciMatchKw kwL.data (kw ++ rest) = some (kw, rest) := by
    rw [← hc]
    exact ciMatchKw_self kw rest
  have hhead : ∀ (k0 : Char) (tl0 : List Char), kwL.data = k0 :: tl0 →
      ∃ c cs, kw = c :: cs ∧ Char.toLower c = k0 := by
    intro k0 tl0 hk
    cases kw with
    | nil => rw [hk] at hc; cases hc
    | cons c cs =>
      rw [hk] at hc
      injection hc with hc1 _
      exact ⟨c, cs, rfl, hc1⟩
  simp only [redactKeywords, List.mem_cons, List.not_mem_nil, or_false] at h
  rcases h with rfl | rfl | rfl | rfl
  · simp [redactKeywords, tryKeywords, hself]
  · obtain ⟨c, cs, rfl, hc1⟩ := hhead 't' "oken".data rfl
    simp only [List.cons_append] at hself
    simp [redactKeywords, tryKeywords, List.cons_append,
      show "password".data = 'p' :: "assword".data from rfl,
      ciMatchKw_head_ne 'p' _ c _ (by rw [hc1]; decide), hself]
  · obtain ⟨c, cs, rfl, hc1⟩ := hhead 'k' "ey".data rfl
    simp only [List.cons_append] at hself
    simp [redactKeywords, tryKeywords, List.cons_append,
      show "password".data = 'p' :: "assword".data from rfl,
      show "token".data = 't' :: "oken".data from rfl,
      ciMatchKw_head_ne 'p' _ c _ (by rw [hc1]; decide),
      ciMatchKw_head_ne 't' _ c _ (by rw [hc1]; decide), hself]
  · obtain ⟨c, cs, rfl, hc1⟩ := hhead 's' "ecret".data rfl
    simp only [List.cons_append] at hself
    simp [redactKeywords, tryKeywords, List.cons_append,
      show "password".data = 'p' :: "assword".data from rfl,
      show "token".data = 't' :: "oken".data from rfl,
      show "key".data = 'k' :: "ey".data from rfl,
      ciMatchKw_head_ne 'p' _ c _ (by rw [hc1]; decide),
      ciMatchKw_head_ne 't' _ c _ (by rw [hc1]; decide),
      ciMatchKw_head_ne 'k' _ c _ (by rw [hc1]; decide), hself]

/-- A tail is a valid stopping point for the greedy value run when it
is empty or starts with whitespace. -/
def stopOk : List Char → Prop
  | [] => True
  | c :: _ => isSpaceRE c = true

theorem dropWhile_append_all {p : Char → Bool} : ∀ (v r : List Char),
    (∀ c ∈ v, p c = true) → List.dropWhile p (v ++ r) = List.dropWhile p r := by
  intro v
  induction v with
  | nil => intro r _; rfl
  | cons c cs ih =>
    intro r hall
    rw [List.cons_append, List.dropWhile_cons, if_pos (hall c (by simp))]
    exact ih r fun d hd => hall d (by simp [hd])

theorem matchValue_build (v r : List Char) (hv : v ≠ [])
    (hvc : ∀ c ∈ v, isValueChar c = true) (hr : stopOk r) :
    matchValue (v ++ r) = some r := by
  cases v with
  | nil => exact absurd rfl hv
  | cons vh vt =>
    have hvh : isValueChar vh = true := hvc vh (by simp)
    have hdw : List.dropWhile isValueChar (vh :: (vt ++ r)) = r := by
      rw [List.dropWhile_cons, if_pos hvh,
        dropWhile_append_all vt r fun d hd => hvc d (by simp [hd])]
      cases r with
      | nil => rfl
      | cons c cs => rw [List.dropWhile_cons, if_neg (by simp [space_not_value hr])]
    have hdq : dropOneQuote r = r := by
      cases r with
      | nil => rfl
      | cons c cs => simp [dropOneQuote, space_not_quote hr]
    show matchValue (vh :: (vt ++ r)) = some r
    simp only [matchValue]
    rw [if_neg (by simp [valueChar_not_quote hvh]), if_pos hvh, hdw, hdq]

theorem matchAfterKw_build (d : Char) (v r : List Char) (hd : d = ':' ∨ d = '=')
    (hv : v ≠ []) (hvc : ∀ c ∈ v, isValueChar c = true) (hr : stopOk r) :
    matchAfterKw (d :: (v ++ r)) = some r := by
  have hdsp : isSpaceRE d = false := by rcases hd with rfl | rfl <;> decide
  have hdelim : (d = ':' || d = '=') = true := by
    rcases hd with rfl | rfl <;> decide
  have hvdw : List.dropWhile isSpaceRE (v ++ r) = v ++ r := by
    cases v with
    | nil => exact absurd rfl hv
    | cons vh vt =>
      rw [List.cons_append, List.dropWhile_cons,
        if_neg (by simp [valueChar_not_space (hvc vh (by simp))])]
  simp only [matchAfterKw, List.dropWhile_cons, hdsp, Bool.false_eq_true, if_false,
    hdelim, if_true, hvdw]
  exact matchValue_build v r hv hvc hr

theorem matchAt_build (kw : List Char) (kwL : String) (d : Char) (v r : List Char)
    (h : kwL ∈ redactKeywords) (hc : kw.map Char.toLower = kwL.data)
    (hd : d = ':' ∨ d = '=') (hv : v ≠ [])
    (hvc : ∀ c ∈ v, isValueChar c = true) (hr : stopOk r) :
    matchAt (kw ++ d :: (v ++ r)) = some (kw, r) := by
  simp only [matchAt, tryKeywords_build kw kwL (d :: (v ++ r)) h hc,
    matchAfterKw_build d v r hd hv hvc hr]

theorem matchAt_space (t : List Char) : matchAt (' ' :: t) = none := by
  have hsp : ∀ (k : Char) (ks : List Char), Char.toLower ' ' ≠ k →
      ciMatchKw (k :: ks) (' ' :: t) = none := fun k ks h =>
    ciMatchKw_head_ne k ks ' ' t h
  simp only [matchAt, redactKeywords, tryKeywords,
    show "password".data = 'p' :: "assword".data from rfl,
    show "token".data = 't' :: "oken".data from rfl,
    show "key".data = 'k' :: "ey".data from rfl,
    show "secret".data = 's' :: "ecret".data from rfl,
    hsp 'p' _ (by decide), hsp 't' _ (by decide), hsp 'k' _ (by decide),
    hsp 's' _ (by decide)]

/-- C8: pattern-based redaction.  For every case variant of every
sensitive field marker, either delimiter, and every pair of non-empty
value tokens (characters from the value class `[^"'\s]`), the redactor
replaces each of the two non-overlapping matches with the mask literal
while preserving the field marker text as matched; `Redact` is the same
scan over byte content; and a quoted value is redacted with its quotes
consumed (concrete instance). -/
theorem c8_pattern_redaction (kw1 kw2 : List Char) (kwL1 kwL2 : String)
    (d1 d2 : Char) (v1 v2 : List Char)
    (h1 : kwL1 ∈ redactKeywords) (hc1 : kw1.map Char.toLower = kwL1.data)
    (h2 : kwL2 ∈ redactKeywords) (hc2 : kw2.map Char.toLower = kwL2.data)
    (hd1 : d1 = ':' ∨ d1 = '=') (hd2 : d2 = ':' ∨ d2 = '=')
    (hv1 : v1 ≠ []) (hvc1 : ∀ c ∈ v1, isValueChar c = true)
    (hv2 : v2 ≠ []) (hvc2 : ∀ c ∈ v2, isValueChar c = true) :
    (RedactString (String.mk (kw1 ++ d1 :: (v1 ++ ' ' :: (kw2 ++ d2 :: v2))))
      = String.mk (kw1 ++ maskRepl ++ ' ' :: (kw2 ++ maskRepl))) ∧
    (∀ b, Redact b = RedactString b) ∧
    RedactString "password: \"abc\"" = "password: [REDACTED]" := by
  refine ⟨?_, fun b => rfl, by decide⟩
  have hm1 : matchAt (kw1 ++ d1 :: (v1 ++ ' ' :: (kw2 ++ d2 :: v2)))
      = some (kw1, ' ' :: (kw2 ++ d2 :: v2)) :=
    matchAt_build kw1 kwL1 d1 v1 (' ' :: (kw2 ++ d2 :: v2)) h1 hc1 hd1 hv1 hvc1
      (by show isSpaceRE ' ' = true; decide)
  have hm2 : matchAt (kw2 ++ d2 :: v2) = some (kw2, []) := by
    have := matchAt_build kw2 kwL2 d2 v2 [] h2 hc2 hd2 hv2 hvc2 trivial
    simpa using this
  show String.mk (redactChars (kw1 ++ d1 :: (v1 ++ ' ' :: (kw2 ++ d2 :: v2)))) = _
  rw [redactChars_match hm1, redactChars_nomatch (matchAt_space _),
    redactChars_match hm2]
  simp [redactChars, redactScan, List.append_assoc]

/-- Witness for C8: a mixed-case marker with `=` and a lower-case
marker with `:`, both redacted. -/
theorem c8_pattern_redaction_witness :
    RedactString "PassWord=s3cr3t! token:xyz" = "PassWord: [REDACTED] token: [REDACTED]" := by
  have h := (c8_pattern_redaction "PassWord".data "token".data "password" "token"
    '=' ':' "s3cr3t!".data "xyz".data (by decide) (by decide) (by decide) (by decide)
    (Or.inr rfl) (Or.inl rfl) (by decide) (by decide) (by decide) (by decide)).1
  simpa using h

end FluidBundler
